import Mathlib

/-!
Verification development for the `vue-query-filters` package.

The model is a shallow embedding of the package's core logic:

* `src/dist/createFilterFactory.js` (the factory version matching the
  shipped type declarations in `src/types/` and the `transformKey` calls
  in `src/src/useFilters.ts`): the `single`, `multiple`, `range` and
  `custom` filter strategies with their `parseQueryParam`,
  `serializeQueryParam`, `hasValue` and `transformKey` members.
* `src/src/useFilters.ts`: the aggregate object — construction from the
  ambient query string, `toQueryObject`, `toOrderedQueryObject`, `get`,
  `has`, `clear`, `clearAll`, `setOptions` — together with the
  `processing` flag driven by `get`.
* `src/src/utils.ts`: `cloneDefault`, modelled in a small
  reference-semantics heap used to reason about default-value aliasing.

Modelling conventions:

* JS strings are modelled as `Str := List Char`; `null` (and `undefined`
  where it behaves the same) is `Option.none`.  Scalars are modelled by
  their string forms, matching the package's own normalisation: every
  value flowing out of `parseQueryParam` is a string, and the spec
  compares scalars as strings.
* JS objects used as string-keyed dictionaries are modelled as
  insertion-ordered association lists with unique keys, written via
  `assocSet` (overwrite in place, else append) — the ordering semantics
  of plain JS objects for non-integer keys.
* The ambient query string (`document.location.search`) is injected as a
  decoded list of key/value entries, in query-string order, as seen
  through `URLSearchParams`.
* The apply callback is modelled by its observable kind (synchronous or
  thenable); `get` returns the event trace of flag transitions and
  callback invocations instead of performing effects.
-/

/-- JS strings, modelled as lists of characters. -/
abbrev Str := List Char

/-- JS truthiness of a string: the empty string is falsy. -/
def strTruthy (s : Str) : Bool := s ≠ []

/-- JS truthiness of a nullable string: `null` and `""` are falsy. -/
def optTruthy (v : Option Str) : Bool :=
  match v with
  | none => false
  | some s => strTruthy s

/-- Fuel-driven worker for JS `String.prototype.split` with a nonempty
separator `c₀ :: d'`: scan left to right, cutting at each leftmost
occurrence of the separator.  The fuel only forces structural
recursion; it never runs out when it starts at the scanned string's
length. -/
def jsSplitGo (c₀ : Char) (d' : Str) : Nat → Str → List Str
  | _, [] => [[]]
  | 0, s => [s]
  | fuel + 1, c :: rest =>
    if c = c₀ ∧ d'.isPrefixOf rest then
      [] :: jsSplitGo c₀ d' fuel (rest.drop d'.length)
    else
      match jsSplitGo c₀ d' fuel rest with
      | [] => [[c]]
      | comp :: comps => (c :: comp) :: comps

/-- JS `String.prototype.split` with a nonempty separator `c₀ :: d'`. -/
def jsSplitNE (c₀ : Char) (d' : Str) (s : Str) : List Str :=
  jsSplitGo c₀ d' s.length s

/-- JS `String.prototype.split`.  An empty separator splits the string
into its individual characters (and the empty string into `[]`). -/
def jsSplit (d s : Str) : List Str :=
  match d with
  | [] => s.map (fun c => [c])
  | c₀ :: d' => jsSplitNE c₀ d' s

/-- JS `Array.prototype.join` on arrays of strings: concatenation with
the separator between consecutive elements. -/
def jsJoin (d : Str) : List Str → Str
  | [] => []
  | [x] => x
  | x :: y :: xs => x ++ d ++ jsJoin d (y :: xs)

/-- A `single` strategy value, a `multiple` element, or a `range`
endpoint after parsing: a string, or `null` rendered as `none`. -/
abbrev Scalar := Option Str

/-- JS rendering of a possibly-null scalar inside `Array.prototype.join`:
`null` and `undefined` render as the empty string. -/
def renderScalar (v : Scalar) : Str :=
  match v with
  | none => []
  | some s => s

/-- The value shape of a `range` filter: `\x7bfrom, to\x7d` with
possibly-null endpoints. -/
structure RangeValue where
  from' : Scalar
  to' : Scalar
deriving DecidableEq

/-- A candidate passed to `hasValue` (`value: string | number`). -/
inductive Cand where
  | str (s : Str)
  | num (n : Int)
deriving DecidableEq

/-- JS `toString` of a candidate. -/
def Cand.toStr : Cand → Str
  | .str s => s
  | .num n => (toString n).toList

/-! ### Strategy functions, from `src/dist/createFilterFactory.js` -/

/-- `single.parseQueryParam`: `!value ? this.defaultValue : value`. -/
def singleParseQueryParam (defaultValue : Scalar) (value : Option Str) : Scalar :=
  if ¬ optTruthy value then defaultValue else value

/-- `single.serializeQueryParam`: `!value ? null : String(value)`
(`String` of a string is itself under the string model of scalars). -/
def singleSerializeQueryParam (value : Scalar) : Option Str :=
  if ¬ optTruthy value then none else value

/-- `single.hasValue`:
`filterValue?.toString() === value.toString()` — a null filter value
yields `undefined`, which is never strictly equal to a string. -/
def singleHasValue (filterValue : Scalar) (value : Cand) : Bool :=
  match filterValue with
  | none => false
  | some s => s = value.toStr

/-- `multiple.parseQueryParam`:
`!value ? this.defaultValue : value.split(delimiter)`. -/
def multipleParseQueryParam (defaultValue : List Str) (value : Option Str)
    (delimiter : Str) : List Str :=
  match value with
  | none => defaultValue
  | some s => if s = [] then defaultValue else jsSplit delimiter s

/-- `multiple.serializeQueryParam` on an array value:
`!value.length ? null : value.join(delimiter)` (the `Array.isArray`
guard lives in the shape dispatch of the aggregate-level strategy). -/
def multipleSerializeQueryParam (value : List Str) (delimiter : Str) : Option Str :=
  if value = [] then none else some (jsJoin delimiter value)

/-- `multiple.hasValue`: `filterValue.includes(value)`.  Elements are
post-parse strings; `includes` uses strict equality, so a numeric
candidate never matches a string element. -/
def multipleHasValue (filterValue : List Str) (value : Cand) : Bool :=
  match value with
  | .str s => filterValue.contains s
  | .num _ => false

/-- `range.parseQueryParam`:
`const [from, to] = value.split(delimiter)` followed by per-endpoint
fallback `from ? from : this.defaultValue.from` (and likewise for `to`,
where a missing part is `undefined`, hence falsy). -/
def rangeParseQueryParam (defaultValue : RangeValue) (value : Option Str)
    (delimiter : Str) : RangeValue :=
  match value with
  | none => defaultValue
  | some s =>
    if s = [] then defaultValue
    else
      let parts := jsSplit delimiter s
      let f := parts.headD []
      let t := parts[1]?
      { from' := if f ≠ [] then some f else defaultValue.from'
        to' :=
          match t with
          | some t' => if t' ≠ [] then some t' else defaultValue.to'
          | none => defaultValue.to' }

/-- `range.serializeQueryParam`:
`(value.from === null && value.to === null) ? null
 : [value.from, value.to].join(delimiter)` — `join` renders a null
endpoint as the empty string. -/
def rangeSerializeQueryParam (value : RangeValue) (delimiter : Str) : Option Str :=
  if value.from' = none ∧ value.to' = none then none
  else some (renderScalar value.from' ++ delimiter ++ renderScalar value.to')

/-- `range.hasValue`:
`filterValue?.from?.toString() === value.toString() ||
 filterValue?.to?.toString() === value.toString()`. -/
def rangeHasValue (filterValue : RangeValue) (value : Cand) : Bool :=
  (match filterValue.from' with
   | none => false
   | some s => s = value.toStr) ||
  (match filterValue.to' with
   | none => false
   | some s => s = value.toStr)

/-! ### Values producible by `parseQueryParam`

The round-trip claim quantifies over values that `parseQueryParam` can
produce from some raw input (a query-string value or an absent key). -/

/-- A `single` value producible by `single.parseQueryParam`. -/
def SingleProducible (defaultValue v : Scalar) : Prop :=
  ∃ raw : Option Str, v = singleParseQueryParam defaultValue raw

/-- A `multiple` value producible by `multiple.parseQueryParam`. -/
def MultipleProducible (defaultValue : List Str) (delimiter : Str)
    (v : List Str) : Prop :=
  ∃ raw : Option Str, v = multipleParseQueryParam defaultValue raw delimiter

/-- A `range` value producible by `range.parseQueryParam`. -/
def RangeProducible (defaultValue : RangeValue) (delimiter : Str)
    (v : RangeValue) : Prop :=
  ∃ raw : Option Str, v = rangeParseQueryParam defaultValue raw delimiter

/-! ### The strategy objects and the factory,
from `src/dist/createFilterFactory.js` -/

/-- The closed set of value shapes handled by the built-in strategies. -/
inductive FilterValue where
  | scalar (v : Scalar)
  | seq (l : List Str)
  | range (v : RangeValue)
deriving DecidableEq

/-- The strategy contract (`AllowedFilter` in `src/types`): default
value, parse, serialize, membership test and key transform. -/
structure AllowedFilter where
  defaultValue : FilterValue
  parseQueryParam : Option Str → Str → FilterValue
  serializeQueryParam : FilterValue → Str → Option Str
  hasValue : FilterValue → Cand → Bool
  transformKey : Str → Str

/-- Options accepted by `createFilterFactory`. -/
structure FilterFactoryOptions where
  keyTransformer : Option (Str → Str)

/-- `const keyTransformer = options?.keyTransformer || ((key) => key)`. -/
def factoryKeyTransform (options : Option FilterFactoryOptions) : Str → Str :=
  match options with
  | some o => o.keyTransformer.getD (fun key => key)
  | none => fun key => key

/-- The record of strategy constructors returned by the factory. -/
structure AllowedFilters where
  single : Scalar → AllowedFilter
  multiple : List Str → AllowedFilter
  range : RangeValue → AllowedFilter
  custom : AllowedFilter → AllowedFilter

/-- `createFilterFactory` from `src/dist/createFilterFactory.js`.  Each
built-in strategy dispatches on its own value shape; the `_` fallbacks
encode the source's dynamic guards (`Array.isArray`, optional chaining)
— through the typed API a strategy is never applied to a foreign
shape. -/
def createFilterFactory (options : Option FilterFactoryOptions) : AllowedFilters :=
  let transformKey := factoryKeyTransform options
  { single := fun defaultValue =>
      { defaultValue := .scalar defaultValue
        parseQueryParam := fun value _ =>
          .scalar (singleParseQueryParam defaultValue value)
        serializeQueryParam := fun v _ =>
          match v with
          | .scalar s => singleSerializeQueryParam s
          | _ => none
        hasValue := fun v c =>
          match v with
          | .scalar s => singleHasValue s c
          | _ => false
        transformKey := transformKey }
    multiple := fun defaultValue =>
      { defaultValue := .seq defaultValue
        parseQueryParam := fun value delimiter =>
          .seq (multipleParseQueryParam defaultValue value delimiter)
        serializeQueryParam := fun v delimiter =>
          match v with
          | .seq l => multipleSerializeQueryParam l delimiter
          | _ => none
        hasValue := fun v c =>
          match v with
          | .seq l => multipleHasValue l c
          | _ => false
        transformKey := transformKey }
    range := fun defaultValue =>
      { defaultValue := .range defaultValue
        parseQueryParam := fun value delimiter =>
          .range (rangeParseQueryParam defaultValue value delimiter)
        serializeQueryParam := fun v delimiter =>
          match v with
          | .range r => rangeSerializeQueryParam r delimiter
          | _ => none
        hasValue := fun v c =>
          match v with
          | .range r => rangeHasValue r c
          | _ => false
        transformKey := transformKey }
    custom := fun filter => { filter with transformKey := transformKey } }

/-! ### The aggregate, from `src/src/useFilters.ts`

JS objects used as dictionaries are insertion-ordered association
lists; property assignment overwrites in place when the key exists and
appends otherwise. -/

/-- A string-keyed, insertion-ordered JS object of strings. -/
abbrev QueryObject := List (Str × Str)

/-- The registry: the fixed, insertion-ordered `name → strategy` map. -/
abbrev Filters := List (Str × AllowedFilter)

/-- The aggregate's per-name values. -/
abbrev FilterProps := List (Str × FilterValue)

/-- The keys of an object, in insertion order. -/
def keysOf {α : Type} (o : List (Str × α)) : List Str := o.map (fun p => p.1)

/-- JS `key in object`. -/
def containsKey {α : Type} (o : List (Str × α)) (k : Str) : Bool :=
  o.any (fun p => p.1 = k)

/-- Property read: the value at `k`, if present (first entry wins). -/
def objLookup {α : Type} (o : List (Str × α)) (k : Str) : Option α :=
  (o.find? (fun p => p.1 = k)).map (fun p => p.2)

/-- JS property assignment `o[k] = v`: overwrite in place when the key
exists, append otherwise. -/
def assocSet {α : Type} (o : List (Str × α)) (k : Str) (v : α) : List (Str × α) :=
  if containsKey o k then o.map (fun p => if p.1 = k then (k, v) else p)
  else o ++ [(k, v)]

/-- `queryObject[key]` where the key is known to be present. -/
def objGet (o : QueryObject) (k : Str) : Str := (objLookup o k).getD []

/-- `URLSearchParams.get`: the first entry with the key, else `null`.
The ambient query string is injected as its decoded entry list. -/
def searchParamsGet (ambient : QueryObject) (k : Str) : Option Str :=
  objLookup ambient k

/-- Reading `this[key]` on the aggregate.  Registered keys are always
present (they are populated at construction and rewritten in place);
an absent key reads as `undefined`, modelled as a null scalar. -/
def thisGet (values : FilterProps) (key : Str) : FilterValue :=
  (objLookup values key).getD (.scalar none)

/-- Construction of `filterProps` (useFilters.ts lines 16–27): for each
registered name, resolve the transformed key, look it up in the ambient
query string and parse. -/
def buildFilterProps (filters : Filters) (ambient : QueryObject)
    (delimiter : Str) : FilterProps :=
  filters.map (fun p =>
    (p.1, p.2.parseQueryParam (searchParamsGet ambient (p.2.transformKey p.1)) delimiter))

/-- `toQueryObject(transformKeys = true)` (useFilters.ts lines 71–82):
serialize every registered filter in registry order, keeping only
truthy strings, keyed by the transformed or raw name. -/
def toQueryObject (filters : Filters) (values : FilterProps) (delimiter : Str)
    (transformKeys : Bool) : QueryObject :=
  filters.foldl (fun queryObject p =>
    match p.2.serializeQueryParam (thisGet values p.1) delimiter with
    | some s =>
      if strTruthy s then
        assocSet queryObject (if transformKeys then p.2.transformKey p.1 else p.1) s
      else queryObject
    | none => queryObject) []

/-- `Object.assign(target, source)`: assign every property of `source`
onto `target`, in `source` order. -/
def objectAssign (target source : QueryObject) : QueryObject :=
  source.foldl (fun t p => assocSet t p.1 p.2) target

/-- `toOrderedQueryObject(transformKeys = true)` (useFilters.ts lines
58–69): copy the serialized entries in ambient-query order first, then
`Object.assign` the full serialized object over the result. -/
def toOrderedQueryObject (filters : Filters) (values : FilterProps)
    (ambient : QueryObject) (delimiter : Str) (transformKeys : Bool) : QueryObject :=
  let queryObject := toQueryObject filters values delimiter transformKeys
  let orderedObject := ambient.foldl (fun oo p =>
    if containsKey queryObject p.1 then assocSet oo p.1 (objGet queryObject p.1)
    else oo) []
  objectAssign orderedObject queryObject

/-- The observable kind of a configured apply callback: synchronous
return, or a thenable whose settlement is observed separately. -/
inductive CallbackKind where
  | sync
  | thenable
deriving DecidableEq

/-- The aggregate's options record after defaulting. -/
structure Options where
  delimiter : Str
  preserveQueryOrder : Bool
  onApply : Option CallbackKind
deriving DecidableEq

/-- A partial options record as passed to `useFilters` or `setOptions`;
`none` marks an absent key. -/
structure PartialOptions where
  delimiter : Option Str
  preserveQueryOrder : Option Bool
  onApply : Option (Option CallbackKind)
deriving DecidableEq

/-- Object spread `\x7b...options, ...newOptions\x7d`: a key present in
`newOptions` overrides, an absent key keeps the old value. -/
def mergeOptions (options : Options) (newOptions : PartialOptions) : Options :=
  { delimiter := newOptions.delimiter.getD options.delimiter
    preserveQueryOrder := newOptions.preserveQueryOrder.getD options.preserveQueryOrder
    onApply :=
      match newOptions.onApply with
      | some v => v
      | none => options.onApply }

/-- `setOptions(newOptions)` (useFilters.ts lines 106–108). -/
def setOptions (options : Options) (newOptions : PartialOptions) : Options :=
  mergeOptions options newOptions

/-- The observable result of aggregate construction (useFilters.ts
lines 10–29): initial values, defaulted options, and the
construction-time `hasCallback` flag. -/
structure InitResult where
  values : FilterProps
  options : Options
  hasCallback : Bool

/-- `useFilters` construction: default the options, parse every
registered filter from the ambient query string, and capture
`hasCallback = !!options.onApply` once. -/
def useFiltersInit (filters : Filters) (ambient : QueryObject)
    (initialOptions : PartialOptions) : InitResult :=
  let options := mergeOptions ⟨",".toList, true, none⟩ initialOptions
  { values := buildFilterProps filters ambient options.delimiter
    options := options
    hasCallback := options.onApply.isSome }

/-- Observable events of `get`/`clear`: `processing`-flag writes,
callback invocations (with their argument), and console warnings. -/
inductive Event where
  | setProcessing (b : Bool)
  | invoke (arg : QueryObject)
  | warn (msg : Str)
deriving DecidableEq

/-- The warning printed by `get` when no callback is configured. -/
def warnMsg : Str := "Cannot use get() - Filter callback is not set".toList

/-- The state and trace produced by one aggregate operation. -/
structure StepResult where
  values : FilterProps
  processing : Bool
  events : List Event
  pendingFinally : Bool
deriving DecidableEq

/-- The argument handed to the apply callback:
`options.preserveQueryOrder ? this.toOrderedQueryObject() : this.toQueryObject()`. -/
def applyArg (filters : Filters) (ambient : QueryObject) (options : Options)
    (values : FilterProps) : QueryObject :=
  if options.preserveQueryOrder then
    toOrderedQueryObject filters values ambient options.delimiter true
  else toQueryObject filters values options.delimiter true

/-- `get()` (useFilters.ts lines 40–56), named `get'` here because plain
`get` collides with a library name.  With a configured callback the
flag is raised, the callback invoked, and the flag cleared immediately
for a synchronous result; a thenable instead registers a `finally`
handler (`pendingFinally`) and leaves the flag raised.  Without a
callback only a warning is emitted. -/
def get' (filters : Filters) (ambient : QueryObject) (options : Options)
    (values : FilterProps) (processing : Bool) : StepResult :=
  match options.onApply with
  | some kind =>
    let arg := applyArg filters ambient options values
    match kind with
    | .sync =>
      { values := values
        processing := false
        events := [.setProcessing true, .invoke arg, .setProcessing false]
        pendingFinally := false }
    | .thenable =>
      { values := values
        processing := true
        events := [.setProcessing true, .invoke arg]
        pendingFinally := true }
  | none =>
    { values := values
      processing := processing
      events := [.warn warnMsg]
      pendingFinally := false }

/-- Settlement of the thenable returned by the callback: the `finally`
handler clears the flag whether the promise fulfils or rejects. -/
def promiseSettle (pendingFinally : Bool) (_fulfilled : Bool) (processing : Bool) : Bool :=
  if pendingFinally then false else processing

/-- One reset inside `clear`: `this[key] = filters[key].defaultValue`.
An unregistered key would make the source throw a `TypeError`
(`filters[key]` is `undefined`); the theorems only apply `clear` to
registered names, where the lookup succeeds. -/
def clearStep (filters : Filters) (values : FilterProps) (key : Str) : FilterProps :=
  match objLookup filters key with
  | some filterConfig => assocSet values key filterConfig.defaultValue
  | none => values

/-- `clear(filterKey, shouldGet = true)` (useFilters.ts lines 91–102);
a single name is passed as its singleton list (the source normalizes
with `Array.isArray`).  An empty list returns early; otherwise all
requested names are reset and then `get()` runs once if the
construction-time `hasCallback` flag and `shouldGet` both hold. -/
def clear (filters : Filters) (ambient : QueryObject) (options : Options)
    (hasCallback : Bool) (values : FilterProps) (processing : Bool)
    (filtersToClear : List Str) (shouldGet : Bool) : StepResult :=
  if filtersToClear.length = 0 then
    { values := values, processing := processing, events := [], pendingFinally := false }
  else if hasCallback ∧ shouldGet then
    get' filters ambient options
      (filtersToClear.foldl (clearStep filters) values) processing
  else
    { values := filtersToClear.foldl (clearStep filters) values
      processing := processing, events := [], pendingFinally := false }

/-- `clearAll()` (useFilters.ts lines 103–105): `clear(filterKeys, true)`. -/
def clearAll (filters : Filters) (ambient : QueryObject) (options : Options)
    (hasCallback : Bool) (values : FilterProps) (processing : Bool) : StepResult :=
  clear filters ambient options hasCallback values processing (keysOf filters) true

/-- Whether an event is a callback invocation. -/
def isInvoke : Event → Bool
  | .invoke _ => true
  | _ => false

/-- Number of callback invocations in a trace. -/
def countInvokes (events : List Event) : Nat := (events.filter isInvoke).length

/-- The `TypeError` raised by `has` on an unregistered name
(`filters[filter]` is `undefined`, so reading `.hasValue` throws). -/
def typeErrorMsg : Str :=
  "TypeError: cannot read hasValue of undefined".toList

/-- `has(filter, value)` (useFilters.ts lines 88–90):
`filters[filter].hasValue(this[filter], value) ?? false`.  For a
registered name this delegates to the strategy (whose `hasValue` is
always a boolean, so `?? false` never fires); for an unregistered name
the member access throws. -/
def has (filters : Filters) (values : FilterProps) (filter : Str)
    (value : Cand) : Except Str Bool :=
  match objLookup filters filter with
  | some filterConfig => .ok (filterConfig.hasValue (thisGet values filter) value)
  | none => .error typeErrorMsg

/-! ### Reference-semantics micro-model for `clear` aliasing

`clear` assigns `filters[key].defaultValue` — the very default
instance, not a copy.  To reason about the aliasing this introduces,
array values are placed on a small heap of mutable arrays addressed by
index; `utils.ts`'s `cloneDefault` is the allocation of a fresh copy. -/

/-- A heap of mutable JS arrays (of strings), addressed by index. -/
abbrev JsHeap := List (List Str)

/-- Dereference an array. -/
def heapRead (h : JsHeap) (r : Nat) : List Str := h.getD r []

/-- `array.push(x)` through a reference: mutates the pointed-to array. -/
def arrayPush (h : JsHeap) (r : Nat) (x : Str) : JsHeap :=
  h.set r (heapRead h r ++ [x])

/-- `this[key] = filters[key].defaultValue` (useFilters.ts line 96)
under reference semantics: the stored reference is the default's own
reference. -/
def clearAssignsDefaultRef (defaultValueRef : Nat) : Nat := defaultValueRef

/-- `cloneDefault` (utils.ts lines 4–13) on an array value: copy the
array into a freshly allocated reference. -/
def cloneDefault (h : JsHeap) (r : Nat) : JsHeap × Nat :=
  (h ++ [heapRead h r], h.length)

/-! ### Ordering specification for `toOrderedQueryObject`

Spec-side definition, following the claim's words: the keys of the
ordered serialization are the serialized keys in ambient-query order
(first occurrences), followed by the remaining serialized keys. -/

/-- The serialized keys among `ambientKeys`, in ambient order, first
occurrences only (`seen` accumulates keys already emitted). -/
def specAmbientKeys (qoKeys : List Str) (seen : List Str) : List Str → List Str
  | [] => []
  | k :: ks =>
    if k ∈ qoKeys ∧ k ∉ seen then k :: specAmbientKeys qoKeys (k :: seen) ks
    else specAmbientKeys qoKeys seen ks

/-! ### Facts about `jsSplit` and `jsJoin` -/

theorem jsSplitGo_nil (c₀ : Char) (d' : Str) (fuel : Nat) :
    jsSplitGo c₀ d' fuel [] = [[]] := by
  cases fuel <;> rfl

theorem jsSplitGo_congr (c₀ : Char) (d' : Str) :
    ∀ (fuel₁ : Nat) (s : Str) (fuel₂ : Nat), s.length ≤ fuel₁ → s.length ≤ fuel₂ →
      jsSplitGo c₀ d' fuel₁ s = jsSplitGo c₀ d' fuel₂ s := by
  intro fuel₁
  induction fuel₁ with
  | zero =>
    intro s fuel₂ h₁ _
    have hs : s = [] := List.length_eq_zero.mp (Nat.le_zero.mp h₁)
    subst hs
    rw [jsSplitGo_nil, jsSplitGo_nil]
  | succ fuel ih =>
    intro s fuel₂ h₁ h₂
    match s, fuel₂ with
    | [], _ => rw [jsSplitGo_nil, jsSplitGo_nil]
    | c :: rest, 0 => simp at h₂
    | c :: rest, fuel₂ + 1 =>
      have hr : rest.length ≤ fuel := Nat.le_of_succ_le_succ h₁
      have hr₂ : rest.length ≤ fuel₂ := Nat.le_of_succ_le_succ h₂
      show (if c = c₀ ∧ d'.isPrefixOf rest then
              [] :: jsSplitGo c₀ d' fuel (rest.drop d'.length)
            else
              match jsSplitGo c₀ d' fuel rest with
              | [] => [[c]]
              | comp :: comps => (c :: comp) :: comps) =
          (if c = c₀ ∧ d'.isPrefixOf rest then
              [] :: jsSplitGo c₀ d' fuel₂ (rest.drop d'.length)
            else
              match jsSplitGo c₀ d' fuel₂ rest with
              | [] => [[c]]
              | comp :: comps => (c :: comp) :: comps)
      have hd : (rest.drop d'.length).length ≤ fuel := by
        rw [List.length_drop]
        omega
      have hd₂ : (rest.drop d'.length).length ≤ fuel₂ := by
        rw [List.length_drop]
        omega
      rw [ih _ _ hd hd₂, ih _ _ hr hr₂]

theorem jsSplitNE_nil (c₀ : Char) (d' : Str) : jsSplitNE c₀ d' [] = [[]] := rfl

theorem jsSplitNE_cons (c₀ : Char) (d' : Str) (c : Char) (rest : Str) :
    jsSplitNE c₀ d' (c :: rest) =
      if c = c₀ ∧ d'.isPrefixOf rest then
        [] :: jsSplitNE c₀ d' (rest.drop d'.length)
      else
        match jsSplitNE c₀ d' rest with
        | [] => [[c]]
        | comp :: comps => (c :: comp) :: comps := by
  show (if c = c₀ ∧ d'.isPrefixOf rest then
          [] :: jsSplitGo c₀ d' rest.length (rest.drop d'.length)
        else
          match jsSplitGo c₀ d' rest.length rest with
          | [] => [[c]]
          | comp :: comps => (c :: comp) :: comps) = _
  rw [jsSplitGo_congr c₀ d' rest.length (rest.drop d'.length)
        (rest.drop d'.length).length
        (by rw [List.length_drop]; omega) le_rfl]
  rfl

/-- Splitting on a single character: the separator check degenerates to
a head-character comparison. -/
theorem jsSplitNE_single_cons (c₀ c : Char) (rest : Str) :
    jsSplitNE c₀ [] (c :: rest) =
      if c = c₀ then
        [] :: jsSplitNE c₀ [] rest
      else
        match jsSplitNE c₀ [] rest with
        | [] => [[c]]
        | comp :: comps => (c :: comp) :: comps := by
  rw [jsSplitNE_cons]
  simp [List.isPrefixOf]

theorem jsSplitNE_ne_nil (c₀ : Char) (d' : Str) (s : Str) :
    jsSplitNE c₀ d' s ≠ [] := by
  cases s with
  | nil => simp [jsSplitNE_nil]
  | cons c rest =>
    rw [jsSplitNE_cons]
    split
    · simp
    · cases h : jsSplitNE c₀ d' rest <;> simp

/-- A string free of the separator character is a single component. -/
theorem jsSplitNE_single_no_sep (c₀ : Char) (s : Str) (h : c₀ ∉ s) :
    jsSplitNE c₀ [] s = [s] := by
  induction s with
  | nil => exact jsSplitNE_nil c₀ []
  | cons c rest ih =>
    rw [jsSplitNE_single_cons]
    have hc : ¬ c = c₀ := fun hc => h (hc ▸ List.mem_cons_self c rest)
    rw [if_neg hc, ih (fun hm => h (List.mem_cons_of_mem c hm))]

/-- Peeling the first component off a single-character split. -/
theorem jsSplitNE_single_append (c₀ : Char) (x t : Str) (h : c₀ ∉ x) :
    jsSplitNE c₀ [] (x ++ c₀ :: t) = x :: jsSplitNE c₀ [] t := by
  induction x with
  | nil =>
    rw [List.nil_append, jsSplitNE_single_cons, if_pos rfl]
  | cons c x' ih =>
    have hc : ¬ c = c₀ := fun hc => h (hc ▸ List.mem_cons_self c x')
    rw [List.cons_append, jsSplitNE_single_cons, if_neg hc,
      ih (fun hm => h (List.mem_cons_of_mem c hm))]

theorem jsSplitNE_single_ne_nil_nil (c₀ : Char) (s : Str) (hs : s ≠ []) :
    jsSplitNE c₀ [] s ≠ [[]] := by
  cases s with
  | nil => exact absurd rfl hs
  | cons c rest =>
    rw [jsSplitNE_single_cons]
    split
    · intro h
      exact jsSplitNE_ne_nil c₀ [] rest (by simpa using h)
    · cases h : jsSplitNE c₀ [] rest <;> simp

theorem jsJoin_nil (d : Str) : jsJoin d [] = [] := rfl

theorem jsJoin_single (d : Str) (x : Str) : jsJoin d [x] = x := rfl

theorem jsJoin_cons₂ (d : Str) (x y : Str) (xs : List Str) :
    jsJoin d (x :: y :: xs) = x ++ d ++ jsJoin d (y :: xs) := rfl

/-- Round trip for single-character separators: splitting the join of a
nonempty list of separator-free components recovers the components. -/
theorem jsSplitNE_jsJoin_single (c₀ : Char) :
    ∀ (l : List Str), l ≠ [] → (∀ comp ∈ l, c₀ ∉ comp) →
      jsSplitNE c₀ [] (jsJoin [c₀] l) = l := by
  intro l
  induction l with
  | nil => intro h; exact absurd rfl h
  | cons x xs ih =>
    intro _ hcomp
    cases xs with
    | nil =>
      rw [jsJoin_single]
      exact jsSplitNE_single_no_sep c₀ x (hcomp x (List.mem_cons_self x []))
    | cons y ys =>
      rw [jsJoin_cons₂]
      have hx : c₀ ∉ x := hcomp x (List.mem_cons_self x (y :: ys))
      have : x ++ [c₀] ++ jsJoin [c₀] (y :: ys) =
          x ++ c₀ :: jsJoin [c₀] (y :: ys) := by
        simp
      rw [this, jsSplitNE_single_append c₀ x _ hx,
        ih (by simp) (fun comp hm => hcomp comp (List.mem_cons_of_mem x hm))]

/-! Concrete sanity checks of the strategy functions against the
spec's §8 scenarios. -/

example :
    multipleParseQueryParam [] (some ("apple,samsung".toList)) [','] =
      ["apple".toList, "samsung".toList] := by decide

example :
    jsJoin ['|'] ["apple".toList, "samsung".toList] = "apple|samsung".toList := by
  decide

example :
    rangeParseQueryParam ⟨none, none⟩ (some ("100,500".toList)) [','] =
      ⟨some ("100".toList), some ("500".toList)⟩ := by decide

example :
    rangeHasValue ⟨some ("100".toList), some ("500".toList)⟩ (.str ("100".toList)) =
      true := by decide

example :
    rangeHasValue ⟨some ("100".toList), some ("500".toList)⟩ (.str ("999".toList)) =
      false := by decide

example :
    multipleParseQueryParam ["a".toList, "b".toList]
      (multipleSerializeQueryParam ["a".toList, "b".toList] ['a', 'a']) ['a', 'a'] =
      [[], ['a', 'b']] := by decide

/-! ### Round-trip facts for the three built-in strategies -/

theorem multipleParseQueryParam_none (dv : List Str) (d : Str) :
    multipleParseQueryParam dv none d = dv := rfl

theorem multipleParseQueryParam_some (dv : List Str) (s d : Str) :
    multipleParseQueryParam dv (some s) d =
      if s = [] then dv else jsSplit d s := rfl

theorem rangeParseQueryParam_none (dv : RangeValue) (d : Str) :
    rangeParseQueryParam dv none d = dv := rfl

theorem rangeParseQueryParam_some (dv : RangeValue) (s d : Str) :
    rangeParseQueryParam dv (some s) d =
      if s = [] then dv
      else
        { from' :=
            if (jsSplit d s).headD [] ≠ [] then some ((jsSplit d s).headD [])
            else dv.from'
          to' :=
            match (jsSplit d s)[1]? with
            | some t' => if t' ≠ [] then some t' else dv.to'
            | none => dv.to' } := rfl

theorem multipleProducible_cases (dv : List Str) (d : Str) (v : List Str)
    (h : MultipleProducible dv d v) :
    v = dv ∨ ∃ s : Str, s ≠ [] ∧ v = jsSplit d s := by
  obtain ⟨raw, hv⟩ := h
  cases raw with
  | none => exact Or.inl hv
  | some s =>
    rw [multipleParseQueryParam_some] at hv
    by_cases hs : s = []
    · rw [if_pos hs] at hv
      exact Or.inl hv
    · rw [if_neg hs] at hv
      exact Or.inr ⟨s, hs, hv⟩

theorem rangeProducible_endpoint_cases (dv : RangeValue) (d : Str)
    (v : RangeValue) (h : RangeProducible dv d v) :
    (v.from' = dv.from' ∨ ∃ s : Str, s ≠ [] ∧ v.from' = some s) ∧
      (v.to' = dv.to' ∨ ∃ s : Str, s ≠ [] ∧ v.to' = some s) := by
  obtain ⟨raw, hv⟩ := h
  cases raw with
  | none =>
    subst hv
    exact ⟨Or.inl rfl, Or.inl rfl⟩
  | some s =>
    rw [rangeParseQueryParam_some] at hv
    by_cases hs : s = []
    · rw [if_pos hs] at hv
      subst hv
      exact ⟨Or.inl rfl, Or.inl rfl⟩
    · rw [if_neg hs] at hv
      subst hv
      constructor
      · by_cases hfe : (jsSplit d s).headD [] = []
        · refine Or.inl ?_
          show (if (jsSplit d s).headD [] ≠ [] then some ((jsSplit d s).headD [])
              else dv.from') = dv.from'
          rw [if_neg (not_ne_iff.mpr hfe)]
        · refine Or.inr ⟨(jsSplit d s).headD [], hfe, ?_⟩
          show (if (jsSplit d s).headD [] ≠ [] then some ((jsSplit d s).headD [])
              else dv.from') = some ((jsSplit d s).headD [])
          rw [if_pos hfe]
      · cases ht : (jsSplit d s)[1]? with
        | none => exact Or.inl rfl
        | some t' =>
          by_cases htt : t' = []
          · refine Or.inl ?_
            show (if t' ≠ [] then some t' else dv.to') = dv.to'
            rw [if_neg (not_ne_iff.mpr htt)]
          · refine Or.inr ⟨t', htt, ?_⟩
            show (if t' ≠ [] then some t' else dv.to') = some t'
            rw [if_pos htt]

/-- Claim C1 (amended).  For every built-in strategy and every value `v`
that `parseQueryParam` can produce from some raw input, with `v`'s
scalar components free of the delimiter, the round trip
`parse(serialize(v, d), d) = v` holds — amended to single-character
delimiters `d = [c₀]`: for a multi-character delimiter the claim fails
(see the counterexample).  Scalars are modelled by their string forms,
so equality is string comparison, as the claim stipulates. -/
theorem claim1_parse_serialize_roundtrip (c₀ : Char) :
    (∀ (dv v : Scalar), SingleProducible dv v →
      singleParseQueryParam dv (singleSerializeQueryParam v) = v)
    ∧ (∀ (dv v : List Str), MultipleProducible dv [c₀] v →
      (∀ comp ∈ v, c₀ ∉ comp) →
      multipleParseQueryParam dv (multipleSerializeQueryParam v [c₀]) [c₀] = v)
    ∧ (∀ (dv v : RangeValue), RangeProducible dv [c₀] v →
      c₀ ∉ renderScalar v.from' → c₀ ∉ renderScalar v.to' →
      rangeParseQueryParam dv (rangeSerializeQueryParam v [c₀]) [c₀] = v) := by
  refine ⟨?_, ?_, ?_⟩
  · -- single
    rintro dv v ⟨raw, hv⟩
    by_cases ht : optTruthy v
    · unfold singleSerializeQueryParam
      rw [if_neg (by simp [ht])]
      unfold singleParseQueryParam
      rw [if_neg (by simp [ht])]
    · unfold singleSerializeQueryParam
      rw [if_pos ht]
      unfold singleParseQueryParam
      rw [if_pos (by simp [optTruthy])]
      unfold singleParseQueryParam at hv
      by_cases hr : optTruthy raw
      · rw [if_neg (by simp [hr])] at hv
        subst hv
        exact absurd hr ht
      · rw [if_pos hr] at hv
        exact hv.symm
  · -- multiple
    intro dv v hprod hcomp
    have hdisj := multipleProducible_cases dv [c₀] v hprod
    by_cases hnil : v = []
    · subst hnil
      unfold multipleSerializeQueryParam
      rw [if_pos rfl, multipleParseQueryParam_none]
      rcases hdisj with h | ⟨s, hs, heq⟩
      · exact h.symm
      · exact absurd heq.symm (by simpa [jsSplit] using jsSplitNE_ne_nil c₀ [] s)
    · by_cases hsing : v = [[]]
      · subst hsing
        unfold multipleSerializeQueryParam
        rw [if_neg (by simp), jsJoin_single, multipleParseQueryParam_some,
          if_pos rfl]
        rcases hdisj with h | ⟨s, hs, heq⟩
        · exact h.symm
        · exact absurd heq.symm
            (by simpa [jsSplit] using jsSplitNE_single_ne_nil_nil c₀ s hs)
      · have hjoin : jsJoin [c₀] v ≠ [] := by
          match v, hnil, hsing with
          | [x], _, hsing =>
            rw [jsJoin_single]
            intro hx
            exact hsing (by rw [hx])
          | x :: y :: xs, _, _ =>
            rw [jsJoin_cons₂]
            simp
        unfold multipleSerializeQueryParam
        rw [if_neg hnil, multipleParseQueryParam_some, if_neg hjoin]
        show jsSplit [c₀] (jsJoin [c₀] v) = v
        simpa [jsSplit] using jsSplitNE_jsJoin_single c₀ v hnil hcomp
  · -- range
    intro dv v hprod hx hy
    obtain ⟨hf, ht⟩ := rangeProducible_endpoint_cases dv [c₀] v hprod
    by_cases hvnone : v.from' = none ∧ v.to' = none
    · unfold rangeSerializeQueryParam
      rw [if_pos hvnone, rangeParseQueryParam_none]
      have h1 : dv.from' = v.from' := by
        rcases hf with h | ⟨s, _, hs⟩
        · exact h.symm
        · rw [hvnone.1] at hs
          exact absurd hs (by simp)
      have h2 : dv.to' = v.to' := by
        rcases ht with h | ⟨s, _, hs⟩
        · exact h.symm
        · rw [hvnone.2] at hs
          exact absurd hs (by simp)
      cases dv with
      | mk df dt =>
        cases v with
        | mk vf vt =>
          simp only at h1 h2
          rw [show RangeValue.mk df dt = RangeValue.mk vf vt from by rw [h1, h2]]
    · unfold rangeSerializeQueryParam
      rw [if_neg hvnone]
      have hsplit : jsSplit [c₀]
          (renderScalar v.from' ++ [c₀] ++ renderScalar v.to') =
          [renderScalar v.from', renderScalar v.to'] := by
        have h1 : renderScalar v.from' ++ [c₀] ++ renderScalar v.to' =
            renderScalar v.from' ++ c₀ :: renderScalar v.to' := by simp
        rw [h1]
        show jsSplitNE c₀ [] _ = _
        rw [jsSplitNE_single_append c₀ _ _ hx, jsSplitNE_single_no_sep c₀ _ hy]
      rw [rangeParseQueryParam_some, if_neg (by simp), hsplit]
      have hfrom : (if ([renderScalar v.from', renderScalar v.to'].headD []) ≠ []
          then some ([renderScalar v.from', renderScalar v.to'].headD [])
          else dv.from') = v.from' := by
        rw [List.headD_cons]
        cases hvf : v.from' with
        | some s =>
          by_cases hse : s = []
          · subst hse
            rw [if_neg (by simp [renderScalar])]
            rcases hf with hfe | ⟨s', hs', heq⟩
            · rw [← hfe, hvf]
            · rw [hvf] at heq
              exact absurd (Option.some.inj heq).symm hs'
          · rw [if_pos (by simpa [renderScalar] using hse)]
            simp [renderScalar]
        | none =>
          rw [if_neg (by simp [renderScalar])]
          rcases hf with hfe | ⟨s', _, heq⟩
          · rw [← hfe, hvf]
          · rw [hvf] at heq
            exact absurd heq (by simp)
      have hto : (match ([renderScalar v.from', renderScalar v.to'])[1]? with
          | some t' => if t' ≠ [] then some t' else dv.to'
          | none => dv.to') = v.to' := by
        show (if renderScalar v.to' ≠ [] then some (renderScalar v.to')
            else dv.to') = v.to'
        cases hvt : v.to' with
        | some s =>
          by_cases hse : s = []
          · subst hse
            rw [if_neg (by simp [renderScalar])]
            rcases ht with hte | ⟨s', hs', heq⟩
            · rw [← hte, hvt]
            · rw [hvt] at heq
              exact absurd (Option.some.inj heq).symm hs'
          · rw [if_pos (by simpa [renderScalar] using hse)]
            simp [renderScalar]
        | none =>
          rw [if_neg (by simp [renderScalar])]
          rcases ht with hte | ⟨s', _, heq⟩
          · rw [← hte, hvt]
          · rw [hvt] at heq
            exact absurd heq (by simp)
      rw [hfrom]
      conv_lhs => rw [hto]

/-- Witness for claim C1: the round trip at concrete inputs — a parsed
single value, a parsed two-element list, and a parsed full range, all
with the default delimiter. -/
theorem claim1_roundtrip_witness :
    singleParseQueryParam none
        (singleSerializeQueryParam
          (singleParseQueryParam none (some ("phones".toList)))) =
      singleParseQueryParam none (some ("phones".toList))
    ∧ multipleParseQueryParam []
        (multipleSerializeQueryParam
          (multipleParseQueryParam [] (some ("apple,samsung".toList)) [','])
          [','])
        [','] =
      multipleParseQueryParam [] (some ("apple,samsung".toList)) [',']
    ∧ rangeParseQueryParam ⟨none, none⟩
        (rangeSerializeQueryParam
          (rangeParseQueryParam ⟨none, none⟩ (some ("100,500".toList)) [','])
          [','])
        [','] =
      rangeParseQueryParam ⟨none, none⟩ (some ("100,500".toList)) [','] := by
  refine ⟨(claim1_parse_serialize_roundtrip ',').1 none _
      ⟨some ("phones".toList), rfl⟩,
    (claim1_parse_serialize_roundtrip ',').2.1 [] _
      ⟨some ("apple,samsung".toList), rfl⟩ (by decide),
    (claim1_parse_serialize_roundtrip ',').2.2 ⟨none, none⟩ _
      ⟨some ("100,500".toList), rfl⟩ (by decide) (by decide)⟩

/-- Counterexample for claim C1 as stated: with the two-character
delimiter `"aa"`, the default value `["a", "b"]` is producible (it is
what parsing an absent key returns), its scalar components do not
contain the delimiter, yet serializing gives `"aaab"`, which reparses
as `["", "ab"]`. -/
theorem claim1_counterexample :
    MultipleProducible ["a".toList, "b".toList] ("aa".toList)
      ["a".toList, "b".toList]
    ∧ (∀ comp ∈ [("a".toList : Str), "b".toList], ¬ ("aa".toList <:+: comp))
    ∧ multipleParseQueryParam ["a".toList, "b".toList]
        (multipleSerializeQueryParam ["a".toList, "b".toList] ("aa".toList))
        ("aa".toList) ≠ ["a".toList, "b".toList] := by
  refine ⟨⟨none, rfl⟩, by decide, by decide⟩

/-- Claim C7.  For a range filter value and any candidate,
`hasValue` returns `true` exactly when the candidate's string form
equals the string form of the `from` endpoint or of the `to` endpoint
(a null endpoint matches nothing); a candidate strictly between the
endpoints that equals neither therefore yields `false`. -/
theorem claim7_range_hasValue_endpoint_equality (filterValue : RangeValue)
    (value : Cand) :
    rangeHasValue filterValue value = true ↔
      (filterValue.from' = some value.toStr ∨
        filterValue.to' = some value.toStr) := by
  cases filterValue with
  | mk f t => cases f <;> cases t <;> simp [rangeHasValue]

/-- Claim C10.  For `single` and `multiple` strategies, parsing the
empty string returns the configured default, exactly like parsing an
absent (`null`) key. -/
theorem claim10_empty_string_behaves_as_absent (dv : Scalar)
    (mdv : List Str) (d : Str) :
    singleParseQueryParam dv (some []) = dv
    ∧ singleParseQueryParam dv none = dv
    ∧ multipleParseQueryParam mdv (some []) d = mdv
    ∧ multipleParseQueryParam mdv none d = mdv := by
  refine ⟨rfl, rfl, ?_, rfl⟩
  rw [multipleParseQueryParam_some, if_pos rfl]

/-! ### Claim C3: default isolation under `clear` -/

/-- Claim C3 (the code violates it).  `clear` stores
`filters[key].defaultValue` itself — `clearAssignsDefaultRef` — so a
push into the cleared array value mutates the strategy's configured
default (here: the default empty array at heap address 0 becomes
`["x"]`).  Had `clear` gone through `utils.ts`'s `cloneDefault`, the
same push would leave the default untouched. -/
theorem claim3_clear_aliases_default :
    heapRead (arrayPush [[]] (clearAssignsDefaultRef 0) ("x".toList)) 0 =
      ["x".toList]
    ∧ heapRead (arrayPush [[]] (clearAssignsDefaultRef 0) ("x".toList)) 0 ≠ []
    ∧ heapRead
        (arrayPush (cloneDefault [[]] 0).1 (cloneDefault [[]] 0).2 ("x".toList))
        0 = [] := by
  refine ⟨rfl, by decide, rfl⟩

/-! ### Claim C4: `has` on an unregistered name -/

/-- Counterexample for claim C4 as stated.  On an unregistered name,
`has` does not return `false`: `filters[filter]` is `undefined`, the
`hasValue` member access throws a `TypeError`, and no "unknown filter"
diagnostic exists in the code. -/
theorem claim4_counterexample :
    has [("category".toList, (createFilterFactory none).single none)]
        [("category".toList, FilterValue.scalar none)]
        ("unknown".toList) (.str ("x".toList)) = .error typeErrorMsg
    ∧ ∀ b : Bool,
        has [("category".toList, (createFilterFactory none).single none)]
            [("category".toList, FilterValue.scalar none)]
            ("unknown".toList) (.str ("x".toList)) ≠ .ok b := by
  constructor
  · rfl
  · intro b h
    cases h

/-- Claim C4 (amended).  For an unregistered name `has` throws a
`TypeError` (aggregate state is untouched — `has` reads only); for a
registered name it delegates to the strategy's `hasValue`. -/
theorem claim4_has_unregistered_throws (filters : Filters)
    (values : FilterProps) (name : Str) (value : Cand) :
    (objLookup filters name = none →
      has filters values name value = .error typeErrorMsg)
    ∧ (∀ fc, objLookup filters name = some fc →
      has filters values name value =
        .ok (fc.hasValue (thisGet values name) value)) := by
  constructor
  · intro h
    unfold has
    rw [h]
  · intro fc h
    unfold has
    rw [h]

/-- Witness for claim C4: a one-filter registry where the unregistered
lookup throws and the registered lookup delegates. -/
theorem claim4_witness :
    has [("category".toList, (createFilterFactory none).single none)]
        [("category".toList, FilterValue.scalar none)]
        ("nope".toList) (.str ("x".toList)) = .error typeErrorMsg
    ∧ has [("category".toList, (createFilterFactory none).single none)]
        [("category".toList, FilterValue.scalar none)]
        ("category".toList) (.str ("x".toList)) =
      .ok (((createFilterFactory none).single none).hasValue
        (thisGet [("category".toList, FilterValue.scalar none)]
          ("category".toList)) (.str ("x".toList))) :=
  ⟨(claim4_has_unregistered_throws _ _ _ _).1 rfl,
    (claim4_has_unregistered_throws _ _ _ _).2 _ rfl⟩

/-! ### A toolbox for ordered JS objects (`assocSet` et al.) -/

theorem keysOf_cons {α : Type} (p : Str × α) (o : List (Str × α)) :
    keysOf (p :: o) = p.1 :: keysOf o := rfl

theorem objLookup_cons {α : Type} (p : Str × α) (o : List (Str × α)) (k : Str) :
    objLookup (p :: o) k = if p.1 = k then some p.2 else objLookup o k := by
  unfold objLookup
  rw [List.find?_cons]
  by_cases h : p.1 = k <;> simp [h]

theorem containsKey_cons {α : Type} (p : Str × α) (o : List (Str × α)) (k : Str) :
    containsKey (p :: o) k = (decide (p.1 = k) || containsKey o k) := by
  simp [containsKey]

theorem containsKey_iff_mem {α : Type} (o : List (Str × α)) (k : Str) :
    containsKey o k = true ↔ k ∈ keysOf o := by
  simp only [containsKey, keysOf, List.any_eq_true, List.mem_map,
    decide_eq_true_eq]

theorem objLookup_eq_none_iff {α : Type} (o : List (Str × α)) (k : Str) :
    objLookup o k = none ↔ k ∉ keysOf o := by
  induction o with
  | nil => simp [objLookup, keysOf]
  | cons p o ih =>
    rw [objLookup_cons, keysOf_cons]
    by_cases hp : p.1 = k
    · simp [hp]
    · simp only [if_neg hp, ih, List.mem_cons]
      constructor
      · intro h hk
        rcases hk with hk | hk
        · exact hp hk.symm
        · exact h hk
      · intro h hk
        exact h (Or.inr hk)

theorem objLookup_isSome_of_mem {α : Type} (o : List (Str × α)) (k : Str)
    (h : k ∈ keysOf o) : ∃ v, objLookup o k = some v := by
  cases hl : objLookup o k with
  | none => exact absurd h ((objLookup_eq_none_iff o k).mp hl)
  | some v => exact ⟨v, rfl⟩

theorem mem_of_objLookup_eq_some {α : Type} (o : List (Str × α)) (k : Str)
    (v : α) (h : objLookup o k = some v) : (k, v) ∈ o := by
  induction o with
  | nil => simp [objLookup] at h
  | cons p o ih =>
    rw [objLookup_cons] at h
    by_cases hp : p.1 = k
    · rw [if_pos hp] at h
      have : p = (k, v) := by
        cases p with
        | mk a b =>
          simp only at hp
          simp only [Option.some.injEq] at h
          rw [hp, h]
      exact this ▸ List.mem_cons_self _ _
    · rw [if_neg hp] at h
      exact List.mem_cons_of_mem _ (ih h)

theorem objLookup_eq_some_of_mem {α : Type} (o : List (Str × α)) (k : Str)
    (v : α) (hnd : (keysOf o).Nodup) (h : (k, v) ∈ o) :
    objLookup o k = some v := by
  induction o with
  | nil => simp at h
  | cons p o ih =>
    rw [keysOf_cons, List.nodup_cons] at hnd
    rw [objLookup_cons]
    rcases List.mem_cons.mp h with he | hm
    · rw [← he]
      simp
    · by_cases hp : p.1 = k
      · exfalso
        apply hnd.1
        rw [hp]
        exact List.mem_map.mpr ⟨(k, v), hm, rfl⟩
      · rw [if_neg hp]
        exact ih hnd.2 hm

theorem objLookup_map_overwrite_self {α : Type} (o : List (Str × α)) (k : Str)
    (v : α) (hc : containsKey o k = true) :
    objLookup (o.map (fun p => if p.1 = k then (k, v) else p)) k = some v := by
  induction o with
  | nil => simp [containsKey] at hc
  | cons p o ih =>
    rw [List.map_cons, objLookup_cons]
    by_cases hp : p.1 = k
    · rw [if_pos hp]
      simp
    · rw [if_neg hp]
      simp only [if_neg hp]
      rw [containsKey_cons] at hc
      simp only [Bool.or_eq_true, decide_eq_true_eq] at hc
      rcases hc with hc | hc
      · exact absurd hc hp
      · exact ih hc

theorem objLookup_append_single_self {α : Type} (o : List (Str × α)) (k : Str)
    (v : α) (hc : containsKey o k = false) :
    objLookup (o ++ [(k, v)]) k = some v := by
  induction o with
  | nil => simp [objLookup]
  | cons p o ih =>
    rw [containsKey_cons] at hc
    simp only [Bool.or_eq_false_iff, decide_eq_false_iff_not] at hc
    rw [List.cons_append, objLookup_cons, if_neg hc.1]
    exact ih hc.2

theorem assocSet_lookup_self {α : Type} (o : List (Str × α)) (k : Str) (v : α) :
    objLookup (assocSet o k v) k = some v := by
  unfold assocSet
  by_cases hc : containsKey o k
  · rw [if_pos hc]
    exact objLookup_map_overwrite_self o k v hc
  · rw [if_neg hc]
    exact objLookup_append_single_self o k v (by simpa using hc)

theorem assocSet_lookup_ne {α : Type} (o : List (Str × α)) (k : Str) (v : α)
    (k' : Str) (hne : k' ≠ k) :
    objLookup (assocSet o k v) k' = objLookup o k' := by
  unfold assocSet
  by_cases hc : containsKey o k
  · rw [if_pos hc]
    clear hc
    induction o with
    | nil => simp
    | cons p o ih =>
      rw [List.map_cons, objLookup_cons, objLookup_cons]
      by_cases hp : p.1 = k
      · rw [if_pos hp]
        have h1 : ¬ (k, v).1 = k' := fun h => hne h.symm
        have h2 : ¬ p.1 = k' := by
          rw [hp]
          exact fun h => hne h.symm
        rw [if_neg h1, if_neg h2, ih]
      · rw [if_neg hp]
        by_cases hp' : p.1 = k'
        · rw [if_pos hp', if_pos hp']
        · rw [if_neg hp', if_neg hp', ih]
  · rw [if_neg hc]
    induction o with
    | nil =>
      simp only [List.nil_append, objLookup_cons]
      rw [if_neg (fun h : k = k' => hne h.symm)]
    | cons p o ih =>
      have hc' : ¬ containsKey o k = true := by
        rw [containsKey_cons] at hc
        simp only [Bool.or_eq_true, decide_eq_true_eq] at hc
        exact fun h => hc (Or.inr h)
      rw [List.cons_append, objLookup_cons, objLookup_cons]
      by_cases hp' : p.1 = k'
      · rw [if_pos hp', if_pos hp']
      · rw [if_neg hp', if_neg hp', ih hc']

theorem keysOf_assocSet {α : Type} (o : List (Str × α)) (k : Str) (v : α) :
    keysOf (assocSet o k v) =
      if containsKey o k then keysOf o else keysOf o ++ [k] := by
  unfold assocSet
  by_cases hc : containsKey o k
  · rw [if_pos hc, if_pos hc]
    unfold keysOf
    rw [List.map_map]
    apply List.map_congr_left
    intro p _
    by_cases hp : p.1 = k
    · simp [hp]
    · simp [hp]
  · rw [if_neg hc, if_neg hc]
    unfold keysOf
    rw [List.map_append]
    rfl

theorem nodup_keysOf_assocSet {α : Type} (o : List (Str × α)) (k : Str) (v : α)
    (hnd : (keysOf o).Nodup) : (keysOf (assocSet o k v)).Nodup := by
  rw [keysOf_assocSet]
  by_cases hc : containsKey o k
  · rw [if_pos hc]
    exact hnd
  · rw [if_neg hc]
    have hk : k ∉ keysOf o := fun h => hc ((containsKey_iff_mem o k).mpr h)
    simp [List.nodup_append, hnd, hk]

theorem entry_unique_of_nodup_keys {α : Type} (o : List (Str × α)) (k : Str)
    (v w : α) (hnd : (keysOf o).Nodup) (hv : (k, v) ∈ o) (hw : (k, w) ∈ o) :
    v = w := by
  have h1 := objLookup_eq_some_of_mem o k v hnd hv
  have h2 := objLookup_eq_some_of_mem o k w hnd hw
  rw [h1] at h2
  exact Option.some.inj h2

theorem assocSet_eq_self_of_mem {α : Type} (o : List (Str × α)) (k : Str)
    (v : α) (hnd : (keysOf o).Nodup) (h : (k, v) ∈ o) : assocSet o k v = o := by
  unfold assocSet
  rw [if_pos ((containsKey_iff_mem o k).mpr (List.mem_map.mpr ⟨(k, v), h, rfl⟩))]
  conv_rhs => rw [← List.map_id o]
  apply List.map_congr_left
  intro p hp
  by_cases hpk : p.1 = k
  · have : p.2 = v := by
      apply entry_unique_of_nodup_keys o k p.2 v hnd _ h
      have : p = (k, p.2) := by
        cases p
        simp only at hpk
        rw [hpk]
      exact this ▸ hp
    cases p with
    | mk a b =>
      simp only at hpk this
      simp [hpk, this]
  · simp [hpk]

/-! ### Facts about `get` and `clear` -/

theorem get_none_eq (filters : Filters) (ambient : QueryObject)
    (options : Options) (values : FilterProps) (processing : Bool)
    (h : options.onApply = none) :
    get' filters ambient options values processing =
      { values := values, processing := processing,
        events := [.warn warnMsg], pendingFinally := false } := by
  unfold get'
  rw [h]

theorem get_sync_eq (filters : Filters) (ambient : QueryObject)
    (options : Options) (values : FilterProps) (processing : Bool)
    (h : options.onApply = some .sync) :
    get' filters ambient options values processing =
      { values := values, processing := false,
        events := [.setProcessing true,
          .invoke (applyArg filters ambient options values),
          .setProcessing false],
        pendingFinally := false } := by
  unfold get'
  rw [h]

theorem get_thenable_eq (filters : Filters) (ambient : QueryObject)
    (options : Options) (values : FilterProps) (processing : Bool)
    (h : options.onApply = some .thenable) :
    get' filters ambient options values processing =
      { values := values, processing := true,
        events := [.setProcessing true,
          .invoke (applyArg filters ambient options values)],
        pendingFinally := true } := by
  unfold get'
  rw [h]

theorem get_values_eq (filters : Filters) (ambient : QueryObject)
    (options : Options) (values : FilterProps) (processing : Bool) :
    (get' filters ambient options values processing).values = values := by
  cases h : options.onApply with
  | none => rw [get_none_eq _ _ _ _ _ h]
  | some kind =>
    cases kind
    · rw [get_sync_eq _ _ _ _ _ h]
    · rw [get_thenable_eq _ _ _ _ _ h]

theorem countInvokes_get_le_one (filters : Filters) (ambient : QueryObject)
    (options : Options) (values : FilterProps) (processing : Bool) :
    countInvokes (get' filters ambient options values processing).events ≤ 1 := by
  cases h : options.onApply with
  | none =>
    rw [get_none_eq _ _ _ _ _ h]
    simp [countInvokes, isInvoke]
  | some kind =>
    cases kind
    · rw [get_sync_eq _ _ _ _ _ h]
      simp [countInvokes, isInvoke]
    · rw [get_thenable_eq _ _ _ _ _ h]
      simp [countInvokes, isInvoke]

theorem countInvokes_get_eq_one (filters : Filters) (ambient : QueryObject)
    (options : Options) (values : FilterProps) (processing : Bool)
    (kind : CallbackKind) (h : options.onApply = some kind) :
    countInvokes (get' filters ambient options values processing).events = 1 := by
  cases kind
  · rw [get_sync_eq _ _ _ _ _ h]
    simp [countInvokes, isInvoke]
  · rw [get_thenable_eq _ _ _ _ _ h]
    simp [countInvokes, isInvoke]

theorem invoke_mem_get_arg (filters : Filters) (ambient : QueryObject)
    (options : Options) (values : FilterProps) (processing : Bool)
    (arg : QueryObject)
    (hm : Event.invoke arg ∈ (get' filters ambient options values processing).events) :
    arg = applyArg filters ambient options values := by
  cases h : options.onApply with
  | none =>
    rw [get_none_eq _ _ _ _ _ h] at hm
    simp at hm
  | some kind =>
    cases kind
    · rw [get_sync_eq _ _ _ _ _ h] at hm
      simp only [List.mem_cons, List.not_mem_nil, or_false] at hm
      rcases hm with hm | hm | hm
      · cases hm
      · exact Event.invoke.inj hm
      · cases hm
    · rw [get_thenable_eq _ _ _ _ _ h] at hm
      simp only [List.mem_cons, List.not_mem_nil, or_false] at hm
      rcases hm with hm | hm
      · cases hm
      · exact Event.invoke.inj hm

theorem clearStep_lookup_ne (filters : Filters) (values : FilterProps)
    (key k : Str) (h : k ≠ key) :
    objLookup (clearStep filters values key) k = objLookup values k := by
  unfold clearStep
  cases objLookup filters key with
  | none => rfl
  | some fc => exact assocSet_lookup_ne values key fc.defaultValue k h

theorem foldl_clearStep_lookup_not_mem (filters : Filters) (keys : List Str)
    (values : FilterProps) (k : Str) (h : k ∉ keys) :
    objLookup (keys.foldl (clearStep filters) values) k = objLookup values k := by
  induction keys generalizing values with
  | nil => rfl
  | cons key rest ih =>
    rw [List.foldl_cons]
    rw [ih (clearStep filters values key) (fun hm => h (List.mem_cons_of_mem _ hm))]
    exact clearStep_lookup_ne filters values key k
      (fun he => h (he ▸ List.mem_cons_self _ _))

theorem foldl_clearStep_lookup_mem (filters : Filters) (keys : List Str)
    (values : FilterProps) (k : Str) (fc : AllowedFilter) (hk : k ∈ keys)
    (hf : objLookup filters k = some fc) :
    objLookup (keys.foldl (clearStep filters) values) k =
      some fc.defaultValue := by
  induction keys generalizing values with
  | nil => simp at hk
  | cons key rest ih =>
    rw [List.foldl_cons]
    by_cases hrest : k ∈ rest
    · exact ih (clearStep filters values key) hrest
    · have hkey : k = key := by
        rcases List.mem_cons.mp hk with h | h
        · exact h
        · exact absurd h hrest
      subst hkey
      rw [foldl_clearStep_lookup_not_mem filters rest _ k hrest]
      unfold clearStep
      rw [hf]
      exact assocSet_lookup_self values k fc.defaultValue

/-- Claim C5.  `apply()`/`get()` drives the `processing` flag: with no
configured callback only a warning is emitted and the state (values and
flag) is unchanged; with a synchronous callback the flag is raised,
then the callback invoked with the serialized values, then the flag
cleared, all within the call; with a thenable callback the flag stays
raised after the call, a `finally` handler is pending, and settlement —
fulfilment or rejection alike — clears the flag. -/
theorem claim5_get_processing_lifecycle (filters : Filters)
    (ambient : QueryObject) (options : Options) (values : FilterProps)
    (processing : Bool) :
    (options.onApply = none →
      get' filters ambient options values processing =
        { values := values, processing := processing,
          events := [.warn warnMsg], pendingFinally := false })
    ∧ (options.onApply = some .sync →
      get' filters ambient options values processing =
        { values := values, processing := false,
          events := [.setProcessing true,
            .invoke (applyArg filters ambient options values),
            .setProcessing false],
          pendingFinally := false })
    ∧ (options.onApply = some .thenable →
      get' filters ambient options values processing =
        { values := values, processing := true,
          events := [.setProcessing true,
            .invoke (applyArg filters ambient options values)],
          pendingFinally := true }
      ∧ ∀ fulfilled : Bool, promiseSettle true fulfilled true = false) :=
  ⟨get_none_eq filters ambient options values processing,
    get_sync_eq filters ambient options values processing,
    fun h => ⟨get_thenable_eq filters ambient options values processing h,
      fun _ => rfl⟩⟩

/-- Witness for claim C5: a one-filter aggregate exercised with no
callback, a synchronous callback, and a thenable callback. -/
theorem claim5_witness :
    get' [("category".toList, (createFilterFactory none).single none)] []
        ⟨",".toList, true, none⟩ [] false =
      { values := [], processing := false, events := [.warn warnMsg],
        pendingFinally := false }
    ∧ get' [("category".toList, (createFilterFactory none).single none)] []
        ⟨",".toList, true, some .sync⟩ [] false =
      { values := [], processing := false,
        events := [.setProcessing true,
          .invoke (applyArg [("category".toList, (createFilterFactory none).single none)]
            [] ⟨",".toList, true, some .sync⟩ []),
          .setProcessing false],
        pendingFinally := false }
    ∧ get' [("category".toList, (createFilterFactory none).single none)] []
        ⟨",".toList, true, some .thenable⟩ [] false =
      { values := [], processing := true,
        events := [.setProcessing true,
          .invoke (applyArg [("category".toList, (createFilterFactory none).single none)]
            [] ⟨",".toList, true, some .thenable⟩ [])],
        pendingFinally := true }
    ∧ promiseSettle true false true = false :=
  ⟨(claim5_get_processing_lifecycle _ _ _ _ _).1 rfl,
    (claim5_get_processing_lifecycle _ _ _ _ _).2.1 rfl,
    ((claim5_get_processing_lifecycle _ _ _ _ _).2.2 rfl).1,
    ((claim5_get_processing_lifecycle
        [("category".toList, (createFilterFactory none).single none)] []
        ⟨",".toList, true, some .thenable⟩ [] false).2.2 rfl).2 false⟩

/-- Claim C6.  A single `clear(list, triggerApply)` (or `clearAll()`)
call invokes the apply callback at most once; an empty list is a
no-op and `triggerApply = false` suppresses the callback entirely;
any invocation happens only after all requested names are reset — its
argument is the serialization of the fully reset values, and every
requested registered name holds its strategy's default afterwards. -/
theorem claim6_clear_single_callback_invocation (filters : Filters)
    (ambient : QueryObject) (options : Options) (hasCallback : Bool)
    (values : FilterProps) (processing : Bool) (keys : List Str)
    (shouldGet : Bool) :
    countInvokes (clear filters ambient options hasCallback values processing
        keys shouldGet).events ≤ 1
    ∧ (keys = [] →
      clear filters ambient options hasCallback values processing keys shouldGet =
        { values := values, processing := processing, events := [],
          pendingFinally := false })
    ∧ (shouldGet = false →
      countInvokes (clear filters ambient options hasCallback values processing
          keys shouldGet).events = 0)
    ∧ (∀ arg, Event.invoke arg ∈ (clear filters ambient options hasCallback
          values processing keys shouldGet).events →
      arg = applyArg filters ambient options
        (keys.foldl (clearStep filters) values))
    ∧ (∀ k fc, k ∈ keys → objLookup filters k = some fc →
      objLookup (clear filters ambient options hasCallback values processing
          keys shouldGet).values k = some fc.defaultValue)
    ∧ countInvokes (clearAll filters ambient options hasCallback values
        processing).events ≤ 1 := by
  have hcount : ∀ (ks : List Str) (sg : Bool),
      countInvokes (clear filters ambient options hasCallback values processing
        ks sg).events ≤ 1 := by
    intro ks sg
    unfold clear
    split
    · simp [countInvokes]
    · split
      · exact countInvokes_get_le_one _ _ _ _ _
      · simp [countInvokes]
  refine ⟨hcount keys shouldGet, ?_, ?_, ?_, ?_, ?_⟩
  · intro h
    subst h
    unfold clear
    have h0 : ([] : List Str).length = 0 := rfl
    rw [if_pos h0]
  · intro h
    subst h
    unfold clear
    split
    · simp [countInvokes]
    · split
      · rename_i hcond
        exact absurd hcond.2 (by simp)
      · simp [countInvokes]
  · intro arg hm
    unfold clear at hm
    split at hm
    · simp at hm
    · split at hm
      · exact invoke_mem_get_arg _ _ _ _ _ _ hm
      · simp at hm
  · intro k fc hk hf
    unfold clear
    split
    · rename_i h0
      rw [List.length_eq_zero.mp h0] at hk
      simp at hk
    · split
      · rw [get_values_eq]
        exact foldl_clearStep_lookup_mem filters keys values k fc hk hf
      · exact foldl_clearStep_lookup_mem filters keys values k fc hk hf
  · unfold clearAll
    exact hcount (keysOf filters) true

/-- Witness for claim C6: a registry with one `multiple` filter and a
synchronous callback; clearing it fires the callback once with the
post-reset serialization, an empty list is a no-op, `shouldGet = false`
suppresses the callback, and the cleared name holds the default. -/
theorem claim6_witness :
    countInvokes (clear [("a".toList, (createFilterFactory none).multiple [])]
        [] ⟨",".toList, true, some .sync⟩ true
        [("a".toList, FilterValue.seq ["x".toList])] false
        ["a".toList] true).events ≤ 1
    ∧ clear [("a".toList, (createFilterFactory none).multiple [])]
        [] ⟨",".toList, true, some .sync⟩ true
        [("a".toList, FilterValue.seq ["x".toList])] false [] true =
      { values := [("a".toList, FilterValue.seq ["x".toList])],
        processing := false, events := [], pendingFinally := false }
    ∧ countInvokes (clear [("a".toList, (createFilterFactory none).multiple [])]
        [] ⟨",".toList, true, some .sync⟩ true
        [("a".toList, FilterValue.seq ["x".toList])] false
        ["a".toList] false).events = 0
    ∧ applyArg [("a".toList, (createFilterFactory none).multiple [])] []
        ⟨",".toList, true, some .sync⟩
        (["a".toList].foldl
          (clearStep [("a".toList, (createFilterFactory none).multiple [])])
          [("a".toList, FilterValue.seq ["x".toList])]) =
      applyArg [("a".toList, (createFilterFactory none).multiple [])] []
        ⟨",".toList, true, some .sync⟩
        (["a".toList].foldl
          (clearStep [("a".toList, (createFilterFactory none).multiple [])])
          [("a".toList, FilterValue.seq ["x".toList])])
    ∧ objLookup (clear [("a".toList, (createFilterFactory none).multiple [])]
        [] ⟨",".toList, true, some .sync⟩ true
        [("a".toList, FilterValue.seq ["x".toList])] false
        ["a".toList] true).values ("a".toList) =
      some ((createFilterFactory none).multiple []).defaultValue :=
  ⟨(claim6_clear_single_callback_invocation _ _ _ _ _ _ _ _).1,
    (claim6_clear_single_callback_invocation _ _ _ _ _ _ _ _).2.1 rfl,
    (claim6_clear_single_callback_invocation _ _ _ _ _ _ _ _).2.2.1 rfl,
    (claim6_clear_single_callback_invocation
        [("a".toList, (createFilterFactory none).multiple [])] []
        ⟨",".toList, true, some .sync⟩ true
        [("a".toList, FilterValue.seq ["x".toList])] false
        ["a".toList] true).2.2.2.1 _ (by decide),
    (claim6_clear_single_callback_invocation _ _ _ _ _ _ _ _).2.2.2.2.1
      ("a".toList) ((createFilterFactory none).multiple [])
      (by decide) rfl⟩

/-- Counterexample for claim C9 as stated.  An aggregate constructed
without an apply callback freezes `hasCallback = false`; after
`setOptions` supplies a synchronous callback, `clear(name, true)` still
invokes nothing — the construction-time gate, not the current options,
decides. -/
theorem claim9_counterexample :
    (useFiltersInit [("a".toList, (createFilterFactory none).single none)] []
        ⟨none, none, none⟩).hasCallback = false
    ∧ (setOptions
        (useFiltersInit [("a".toList, (createFilterFactory none).single none)]
          [] ⟨none, none, none⟩).options
        ⟨none, none, some (some .sync)⟩).onApply = some .sync
    ∧ countInvokes (clear
        [("a".toList, (createFilterFactory none).single none)] []
        (setOptions
          (useFiltersInit [("a".toList, (createFilterFactory none).single none)]
            [] ⟨none, none, none⟩).options
          ⟨none, none, some (some .sync)⟩)
        (useFiltersInit [("a".toList, (createFilterFactory none).single none)]
          [] ⟨none, none, none⟩).hasCallback
        (useFiltersInit [("a".toList, (createFilterFactory none).single none)]
          [] ⟨none, none, none⟩).values
        false ["a".toList] true).events = 0 :=
  ⟨rfl, rfl, by decide⟩

/-- Claim C9 (amended).  `clear` is gated by the `hasCallback` flag
captured at construction: constructed without a callback the flag is
`false`, and `clear` then invokes no callback regardless of the options
in force at clear time; a callback supplied later through `setOptions`
takes effect only for direct `get()`/`apply()` calls. -/
theorem claim9_clear_ignores_late_callback (filters : Filters)
    (ambient : QueryObject) (initialOptions : PartialOptions)
    (values : FilterProps) (processing : Bool) (keys : List Str)
    (shouldGet : Bool) :
    ((mergeOptions ⟨",".toList, true, none⟩ initialOptions).onApply = none →
      (useFiltersInit filters ambient initialOptions).hasCallback = false)
    ∧ (∀ options : Options,
      countInvokes (clear filters ambient options false values processing
        keys shouldGet).events = 0)
    ∧ (∀ (options : Options) (kind : CallbackKind),
      options.onApply = some kind →
      countInvokes (get' filters ambient options values processing).events = 1) := by
  refine ⟨?_, ?_, ?_⟩
  · intro h
    unfold useFiltersInit
    simp only [h, Option.isSome_none]
  · intro options
    unfold clear
    split
    · simp [countInvokes]
    · split
      · rename_i hcond
        exact absurd hcond.1 (by simp)
      · simp [countInvokes]
  · intro options kind h
    exact countInvokes_get_eq_one filters ambient options values processing kind h

/-- Witness for claim C9's amended statement at a concrete aggregate. -/
theorem claim9_witness :
    (useFiltersInit [("a".toList, (createFilterFactory none).single none)] []
        ⟨none, none, none⟩).hasCallback = false
    ∧ countInvokes (clear
        [("a".toList, (createFilterFactory none).single none)] []
        ⟨",".toList, true, some .sync⟩ false
        [("a".toList, FilterValue.scalar none)] false
        ["a".toList] true).events = 0
    ∧ countInvokes (get'
        [("a".toList, (createFilterFactory none).single none)] []
        ⟨",".toList, true, some .sync⟩
        [("a".toList, FilterValue.scalar none)] false).events = 1 :=
  ⟨(claim9_clear_ignores_late_callback
      [("a".toList, (createFilterFactory none).single none)] []
      ⟨none, none, none⟩ [("a".toList, FilterValue.scalar none)] false
      ["a".toList] true).1 rfl,
    (claim9_clear_ignores_late_callback
      [("a".toList, (createFilterFactory none).single none)] []
      ⟨none, none, none⟩ [("a".toList, FilterValue.scalar none)] false
      ["a".toList] true).2.1 ⟨",".toList, true, some .sync⟩,
    (claim9_clear_ignores_late_callback
      [("a".toList, (createFilterFactory none).single none)] []
      ⟨none, none, none⟩ [("a".toList, FilterValue.scalar none)] false
      ["a".toList] true).2.2 ⟨",".toList, true, some .sync⟩ .sync rfl⟩

/-! ### Claim C8: the shared key transform -/

theorem buildFilterProps_lookup (filters : Filters) (ambient : QueryObject)
    (delimiter : Str) (name : Str) (fc : AllowedFilter)
    (hnd : (keysOf filters).Nodup) (hm : (name, fc) ∈ filters) :
    objLookup (buildFilterProps filters ambient delimiter) name =
      some (fc.parseQueryParam
        (searchParamsGet ambient (fc.transformKey name)) delimiter) := by
  have hkeys : keysOf (buildFilterProps filters ambient delimiter) =
      keysOf filters := by
    unfold buildFilterProps keysOf
    rw [List.map_map]
    rfl
  apply objLookup_eq_some_of_mem
  · rw [hkeys]
    exact hnd
  · exact List.mem_map.mpr ⟨(name, fc), hm, rfl⟩

/-- Claim C8.  All four constructors of one factory instance attach the
same key transform (`custom` overrides any caller-provided one); when
the factory is created without a `keyTransformer` option the transform
is the identity; and aggregate construction resolves each registered
filter's query-string key through its strategy's transform before the
ambient lookup. -/
theorem claim8_factory_shared_key_transform
    (options : Option FilterFactoryOptions) (dv : Scalar) (dl : List Str)
    (dr : RangeValue) (cf : AllowedFilter) :
    ((createFilterFactory options).single dv).transformKey =
      factoryKeyTransform options
    ∧ ((createFilterFactory options).multiple dl).transformKey =
      factoryKeyTransform options
    ∧ ((createFilterFactory options).range dr).transformKey =
      factoryKeyTransform options
    ∧ ((createFilterFactory options).custom cf).transformKey =
      factoryKeyTransform options
    ∧ factoryKeyTransform none = (fun key => key)
    ∧ factoryKeyTransform (some ⟨none⟩) = (fun key => key)
    ∧ (∀ (filters : Filters) (ambient : QueryObject) (delimiter : Str)
        (name : Str) (fc : AllowedFilter),
      (keysOf filters).Nodup → (name, fc) ∈ filters →
      objLookup (buildFilterProps filters ambient delimiter) name =
        some (fc.parseQueryParam
          (searchParamsGet ambient (fc.transformKey name)) delimiter)) :=
  ⟨rfl, rfl, rfl, rfl, rfl, rfl,
    fun filters ambient delimiter name fc hnd hm =>
      buildFilterProps_lookup filters ambient delimiter name fc hnd hm⟩

/-- Witness for claim C8: a factory with the identity transform and a
one-filter registry; construction looks the filter up under its
transformed (identity) key. -/
theorem claim8_witness :
    ((createFilterFactory none).single none).transformKey =
      factoryKeyTransform none
    ∧ objLookup (buildFilterProps
        [("a".toList, (createFilterFactory none).single none)]
        [("a".toList, "v".toList)] (",".toList)) ("a".toList) =
      some (((createFilterFactory none).single none).parseQueryParam
        (searchParamsGet [("a".toList, "v".toList)]
          (((createFilterFactory none).single none).transformKey ("a".toList)))
        (",".toList)) :=
  ⟨(claim8_factory_shared_key_transform none none [] ⟨none, none⟩
      ((createFilterFactory none).single none)).1,
    (claim8_factory_shared_key_transform none none [] ⟨none, none⟩
      ((createFilterFactory none).single none)).2.2.2.2.2.2
      [("a".toList, (createFilterFactory none).single none)]
      [("a".toList, "v".toList)] (",".toList) ("a".toList)
      ((createFilterFactory none).single none)
      (by decide) (List.mem_cons_self _ _)⟩

/-! ### Ordering of `toOrderedQueryObject` (claim C2) -/

theorem foldl_preserves {α β : Type} (P : β → Prop) (f : β → α → β)
    (hstep : ∀ b a, P b → P (f b a)) :
    ∀ (l : List α) (b : β), P b → P (l.foldl f b) := by
  intro l
  induction l with
  | nil => intro b hb; exact hb
  | cons a rest ih =>
    intro b hb
    rw [List.foldl_cons]
    exact ih (f b a) (hstep b a hb)

theorem nodup_keysOf_toQueryObject (filters : Filters) (values : FilterProps)
    (delimiter : Str) (transformKeys : Bool) :
    (keysOf (toQueryObject filters values delimiter transformKeys)).Nodup := by
  unfold toQueryObject
  apply foldl_preserves (fun (o : QueryObject) => (keysOf o).Nodup)
  · intro o p h
    cases p.2.serializeQueryParam (thisGet values p.1) delimiter with
    | none => exact h
    | some s =>
      by_cases hs : strTruthy s
      · simp only [hs, if_pos]
        exact nodup_keysOf_assocSet _ _ _ h
      · simp only [hs]
        rw [if_neg (by simp [hs])]
        exact h
  · simp [keysOf]

theorem objLookup_append {α : Type} (a b : List (Str × α)) (k : Str) :
    objLookup (a ++ b) k =
      match objLookup a k with
      | some v => some v
      | none => objLookup b k := by
  induction a with
  | nil => simp [objLookup]
  | cons p rest ih =>
    rw [List.cons_append, objLookup_cons, objLookup_cons]
    by_cases hp : p.1 = k
    · rw [if_pos hp, if_pos hp]
    · rw [if_neg hp, if_neg hp, ih]

theorem containsKey_append_single {α : Type} (o : List (Str × α)) (k k' : Str)
    (v : α) :
    containsKey (o ++ [(k, v)]) k' = (containsKey o k' || decide (k = k')) := by
  unfold containsKey
  rw [List.any_append]
  simp

theorem specAmbientKeys_nil (qoKeys seen : List Str) :
    specAmbientKeys qoKeys seen [] = [] := rfl

theorem specAmbientKeys_cons (qoKeys seen : List Str) (k : Str) (ks : List Str) :
    specAmbientKeys qoKeys seen (k :: ks) =
      if k ∈ qoKeys ∧ k ∉ seen then k :: specAmbientKeys qoKeys (k :: seen) ks
      else specAmbientKeys qoKeys seen ks := rfl

theorem specAmbientKeys_congr (qoKeys : List Str) :
    ∀ (l seen₁ seen₂ : List Str), (∀ k, k ∈ seen₁ ↔ k ∈ seen₂) →
      specAmbientKeys qoKeys seen₁ l = specAmbientKeys qoKeys seen₂ l := by
  intro l
  induction l with
  | nil => intro seen₁ seen₂ _; rfl
  | cons k ks ih =>
    intro seen₁ seen₂ h
    rw [specAmbientKeys_cons, specAmbientKeys_cons]
    by_cases hk : k ∈ qoKeys ∧ k ∉ seen₁
    · rw [if_pos hk, if_pos ⟨hk.1, fun hm => hk.2 ((h k).mpr hm)⟩,
        ih (k :: seen₁) (k :: seen₂) (by
          intro x
          simp only [List.mem_cons]
          exact or_congr Iff.rfl (h x))]
    · rw [if_neg hk, if_neg (by
        intro ⟨h1, h2⟩
        exact hk ⟨h1, fun hm => h2 ((h k).mp hm)⟩)]
      exact ih seen₁ seen₂ h

theorem specAmbientKeys_mem (qoKeys : List Str) :
    ∀ (l seen : List Str) (k : Str),
      k ∈ specAmbientKeys qoKeys seen l ↔ k ∈ qoKeys ∧ k ∉ seen ∧ k ∈ l := by
  intro l
  induction l with
  | nil => simp [specAmbientKeys_nil]
  | cons a ks ih =>
    intro seen k
    rw [specAmbientKeys_cons]
    by_cases ha : a ∈ qoKeys ∧ a ∉ seen
    · rw [if_pos ha]
      simp only [List.mem_cons, ih]
      by_cases hak : k = a
      · subst hak
        tauto
      · tauto
    · rw [if_neg ha, ih]
      simp only [List.mem_cons]
      by_cases hak : k = a
      · subst hak
        tauto
      · tauto

theorem specAmbientKeys_nodup (qoKeys : List Str) :
    ∀ (l seen : List Str), (specAmbientKeys qoKeys seen l).Nodup := by
  intro l
  induction l with
  | nil => intro seen; simp [specAmbientKeys_nil]
  | cons a ks ih =>
    intro seen
    rw [specAmbientKeys_cons]
    by_cases ha : a ∈ qoKeys ∧ a ∉ seen
    · rw [if_pos ha]
      rw [List.nodup_cons]
      refine ⟨?_, ih (a :: seen)⟩
      intro hm
      exact ((specAmbientKeys_mem qoKeys ks (a :: seen) a).mp hm).2.1
        (List.mem_cons_self a seen)
    · rw [if_neg ha]
      exact ih seen

theorem phase1_foldl_eq (qo : QueryObject) :
    ∀ (ambient : QueryObject) (acc : QueryObject),
      (keysOf acc).Nodup →
      (∀ p ∈ acc, p.1 ∈ keysOf qo ∧ p.2 = objGet qo p.1) →
      ambient.foldl (fun oo p =>
        if containsKey qo p.1 then assocSet oo p.1 (objGet qo p.1) else oo) acc =
      acc ++ (specAmbientKeys (keysOf qo) (keysOf acc) (keysOf ambient)).map
        (fun k => (k, objGet qo k)) := by
  intro ambient
  induction ambient with
  | nil =>
    intro acc _ _
    simp [specAmbientKeys_nil, keysOf]
  | cons p rest ih =>
    intro acc hnd hcons
    rw [List.foldl_cons, keysOf_cons, specAmbientKeys_cons]
    by_cases hc : containsKey qo p.1
    · rw [if_pos hc]
      have hpq : p.1 ∈ keysOf qo := (containsKey_iff_mem qo p.1).mp hc
      by_cases hmem : p.1 ∈ keysOf acc
      · obtain ⟨v, hv⟩ := objLookup_isSome_of_mem acc p.1 hmem
        have hvmem := mem_of_objLookup_eq_some acc p.1 v hv
        have hveq : v = objGet qo p.1 := (hcons (p.1, v) hvmem).2
        have hself : assocSet acc p.1 (objGet qo p.1) = acc :=
          assocSet_eq_self_of_mem acc p.1 (objGet qo p.1) hnd (hveq ▸ hvmem)
        rw [hself, if_neg (fun h => h.2 hmem)]
        exact ih acc hnd hcons
      · rw [if_pos ⟨hpq, hmem⟩]
        have hfresh : assocSet acc p.1 (objGet qo p.1) =
            acc ++ [(p.1, objGet qo p.1)] := by
          unfold assocSet
          rw [if_neg (fun h => hmem ((containsKey_iff_mem acc p.1).mp h))]
        have hnd' : (keysOf (assocSet acc p.1 (objGet qo p.1))).Nodup :=
          nodup_keysOf_assocSet acc p.1 _ hnd
        have hcons' : ∀ q ∈ assocSet acc p.1 (objGet qo p.1),
            q.1 ∈ keysOf qo ∧ q.2 = objGet qo q.1 := by
          rw [hfresh]
          intro q hq
          rcases List.mem_append.mp hq with hq | hq
          · exact hcons q hq
          · have hqe : q = (p.1, objGet qo p.1) := List.mem_singleton.mp hq
            subst hqe
            exact ⟨hpq, rfl⟩
        rw [ih (assocSet acc p.1 (objGet qo p.1)) hnd' hcons', hfresh]
        have hkeys' : keysOf (acc ++ [(p.1, objGet qo p.1)]) =
            keysOf acc ++ [p.1] := by
          unfold keysOf
          rw [List.map_append]
          rfl
        rw [hkeys',
          specAmbientKeys_congr (keysOf qo) (keysOf rest)
            (keysOf acc ++ [p.1]) (p.1 :: keysOf acc)
            (by
              intro x
              simp only [List.mem_append, List.mem_cons, List.mem_singleton]
              tauto)]
        simp [List.append_assoc]
    · rw [if_neg hc,
        if_neg (fun h => hc ((containsKey_iff_mem qo p.1).mpr h.1))]
      exact ih acc hnd hcons

theorem objectAssign_eq (src : QueryObject) :
    ∀ (target : QueryObject),
      (keysOf src).Nodup → (keysOf target).Nodup →
      (∀ p ∈ target, ∀ q ∈ src, q.1 = p.1 → q.2 = p.2) →
      objectAssign target src =
        target ++ src.filter (fun p => ! containsKey target p.1) := by
  induction src with
  | nil =>
    intro target _ _ _
    simp [objectAssign]
  | cons q rest ih =>
    intro target hsrc htgt hagree
    rw [keysOf_cons, List.nodup_cons] at hsrc
    rw [show objectAssign target (q :: rest) =
        objectAssign (assocSet target q.1 q.2) rest from rfl]
    by_cases hk : containsKey target q.1
    · have hqmem : (q.1, q.2) ∈ target := by
        obtain ⟨w, hw⟩ :=
          objLookup_isSome_of_mem target q.1 ((containsKey_iff_mem _ _).mp hk)
        have hwm := mem_of_objLookup_eq_some target q.1 w hw
        have hqw : q.2 = w := hagree (q.1, w) hwm q (List.mem_cons_self q rest) rfl
        rw [hqw]
        exact hwm
      have hself : assocSet target q.1 q.2 = target :=
        assocSet_eq_self_of_mem target q.1 q.2 htgt hqmem
      rw [hself,
        ih target hsrc.2 htgt
          (fun p hp q' hq' => hagree p hp q' (List.mem_cons_of_mem _ hq')),
        List.filter_cons]
      simp [hk]
    · have hfresh : assocSet target q.1 q.2 = target ++ [(q.1, q.2)] := by
        unfold assocSet
        rw [if_neg hk]
      have htgt' : (keysOf (target ++ [(q.1, q.2)])).Nodup := by
        have h := nodup_keysOf_assocSet target q.1 q.2 htgt
        rwa [hfresh] at h
      have hagree' : ∀ p ∈ target ++ [(q.1, q.2)], ∀ q' ∈ rest,
          q'.1 = p.1 → q'.2 = p.2 := by
        intro p hp q' hq' he
        rcases List.mem_append.mp hp with hp | hp
        · exact hagree p hp q' (List.mem_cons_of_mem _ hq') he
        · have hpq : p = (q.1, q.2) := List.mem_singleton.mp hp
          subst hpq
          exfalso
          apply hsrc.1
          rw [← he]
          exact List.mem_map.mpr ⟨q', hq', rfl⟩
      rw [hfresh, ih (target ++ [(q.1, q.2)]) hsrc.2 htgt' hagree']
      have hfcongr : rest.filter
            (fun p => ! containsKey (target ++ [(q.1, q.2)]) p.1) =
          rest.filter (fun p => ! containsKey target p.1) := by
        apply List.filter_congr
        intro x hx
        rw [containsKey_append_single]
        have hne : ¬ q.1 = x.1 :=
          fun he => hsrc.1 (he ▸ List.mem_map.mpr ⟨x, hx, rfl⟩)
        simp [hne]
      rw [hfcongr, List.filter_cons]
      simp [hk, List.append_assoc]

theorem keysOf_map_pairing (g : Str → Str) (l : List Str) :
    keysOf (l.map (fun k => (k, g k))) = l := by
  unfold keysOf
  rw [List.map_map]
  exact List.map_id l

theorem keysOf_filter_key_pred {α : Type} (o : List (Str × α)) (q : Str → Bool) :
    keysOf (o.filter (fun p => q p.1)) = (keysOf o).filter q := by
  induction o with
  | nil => rfl
  | cons p rest ih =>
    by_cases hq : q p.1 = true
    · simp [List.filter_cons, hq, keysOf_cons, ih]
    · simp [List.filter_cons, hq, keysOf_cons, ih]

theorem nodup_keysOf_filter {α : Type} (o : List (Str × α))
    (pred : Str × α → Bool) (h : (keysOf o).Nodup) :
    (keysOf (o.filter pred)).Nodup := by
  unfold keysOf at h ⊢
  exact h.sublist (List.Sublist.map (fun p => p.1) (List.filter_sublist o))

theorem keysOf_filter_subset {α : Type} (o : List (Str × α))
    (pred : Str × α → Bool) (k : Str) (hk : k ∈ keysOf (o.filter pred)) :
    k ∈ keysOf o := by
  unfold keysOf at hk ⊢
  exact (List.Sublist.map (fun p => p.1) (List.filter_sublist o)).subset hk

theorem keysOf_append {α : Type} (a b : List (Str × α)) :
    keysOf (a ++ b) = keysOf a ++ keysOf b := by
  unfold keysOf
  rw [List.map_append]

theorem orderedObject_general (qo ambient : QueryObject)
    (hqnd : (keysOf qo).Nodup) :
    (∀ k, objLookup (objectAssign
        ((specAmbientKeys (keysOf qo) [] (keysOf ambient)).map
          (fun k => (k, objGet qo k))) qo) k = objLookup qo k)
    ∧ (keysOf (objectAssign
        ((specAmbientKeys (keysOf qo) [] (keysOf ambient)).map
          (fun k => (k, objGet qo k))) qo)).Nodup
    ∧ keysOf (objectAssign
        ((specAmbientKeys (keysOf qo) [] (keysOf ambient)).map
          (fun k => (k, objGet qo k))) qo) =
      specAmbientKeys (keysOf qo) [] (keysOf ambient)
        ++ (keysOf qo).filter (fun k => ! decide (k ∈ keysOf ambient)) := by
  have htk : keysOf ((specAmbientKeys (keysOf qo) [] (keysOf ambient)).map
      (fun k => (k, objGet qo k))) =
      specAmbientKeys (keysOf qo) [] (keysOf ambient) :=
    keysOf_map_pairing _ _
  have htnd : (keysOf ((specAmbientKeys (keysOf qo) [] (keysOf ambient)).map
      (fun k => (k, objGet qo k)))).Nodup := by
    rw [htk]
    exact specAmbientKeys_nodup _ _ _
  have hagree : ∀ p ∈ (specAmbientKeys (keysOf qo) [] (keysOf ambient)).map
      (fun k => (k, objGet qo k)), ∀ q ∈ qo, q.1 = p.1 → q.2 = p.2 := by
    intro p hp q hq he
    obtain ⟨k, _, hpk⟩ := List.mem_map.mp hp
    subst hpk
    simp only at he ⊢
    have hq2 : objLookup qo k = some q.2 := by
      apply objLookup_eq_some_of_mem qo k q.2 hqnd
      have hqe : q = (k, q.2) := by
        cases q
        simp only at he
        rw [he]
      exact hqe ▸ hq
    simp [objGet, hq2]
  have hassign := objectAssign_eq qo _ hqnd htnd hagree
  rw [hassign]
  have hkeys : keysOf (((specAmbientKeys (keysOf qo) [] (keysOf ambient)).map
        (fun k => (k, objGet qo k)))
        ++ qo.filter (fun p => ! containsKey
          ((specAmbientKeys (keysOf qo) [] (keysOf ambient)).map
            (fun k => (k, objGet qo k))) p.1)) =
      specAmbientKeys (keysOf qo) [] (keysOf ambient)
        ++ (keysOf qo).filter (fun k => ! decide (k ∈ keysOf ambient)) := by
    rw [keysOf_append, htk,
      keysOf_filter_key_pred qo (fun k => ! containsKey
        ((specAmbientKeys (keysOf qo) [] (keysOf ambient)).map
          (fun k => (k, objGet qo k))) k)]
    congr 1
    apply List.filter_congr
    intro k hkq
    have hiff : containsKey ((specAmbientKeys (keysOf qo) [] (keysOf ambient)).map
        (fun k => (k, objGet qo k))) k = true ↔ k ∈ keysOf ambient := by
      rw [containsKey_iff_mem, htk, specAmbientKeys_mem]
      constructor
      · rintro ⟨_, _, h3⟩
        exact h3
      · intro h
        exact ⟨hkq, by simp, h⟩
    by_cases hka : k ∈ keysOf ambient
    · rw [decide_eq_true hka]
      rw [show containsKey ((specAmbientKeys (keysOf qo) [] (keysOf ambient)).map
          (fun k => (k, objGet qo k))) k = true from hiff.mpr hka]
    · rw [decide_eq_false hka]
      have : ¬ containsKey ((specAmbientKeys (keysOf qo) [] (keysOf ambient)).map
          (fun k => (k, objGet qo k))) k = true := fun h => hka (hiff.mp h)
      rw [Bool.not_eq_true] at this
      rw [this]
  refine ⟨?_, ?_, hkeys⟩
  · intro k
    rw [objLookup_append]
    by_cases hkt : k ∈ keysOf ((specAmbientKeys (keysOf qo) [] (keysOf ambient)).map
        (fun k => (k, objGet qo k)))
    · have hks : k ∈ specAmbientKeys (keysOf qo) [] (keysOf ambient) := by
        rwa [htk] at hkt
      have hkq : k ∈ keysOf qo :=
        ((specAmbientKeys_mem (keysOf qo) (keysOf ambient) [] k).mp hks).1
      obtain ⟨v, hv⟩ := objLookup_isSome_of_mem qo k hkq
      have hlt : objLookup ((specAmbientKeys (keysOf qo) [] (keysOf ambient)).map
          (fun k => (k, objGet qo k))) k = some (objGet qo k) := by
        apply objLookup_eq_some_of_mem _ k _ htnd
        exact List.mem_map.mpr ⟨k, hks, rfl⟩
      rw [hlt, hv]
      simp [objGet, hv]
    · have hnone : objLookup ((specAmbientKeys (keysOf qo) [] (keysOf ambient)).map
          (fun k => (k, objGet qo k))) k = none :=
        (objLookup_eq_none_iff _ _).mpr hkt
      rw [hnone]
      by_cases hkq : k ∈ keysOf qo
      · obtain ⟨v, hv⟩ := objLookup_isSome_of_mem qo k hkq
        have hmemq : (k, v) ∈ qo := mem_of_objLookup_eq_some qo k v hv
        have hpred : (! containsKey ((specAmbientKeys (keysOf qo) []
            (keysOf ambient)).map (fun k => (k, objGet qo k))) k) = true := by
          have : ¬ containsKey ((specAmbientKeys (keysOf qo) []
              (keysOf ambient)).map (fun k => (k, objGet qo k))) k = true :=
            fun h => hkt ((containsKey_iff_mem _ _).mp h)
          rw [Bool.not_eq_true] at this
          rw [this]
          rfl
        have hmf : (k, v) ∈ qo.filter (fun p => ! containsKey
            ((specAmbientKeys (keysOf qo) [] (keysOf ambient)).map
              (fun k => (k, objGet qo k))) p.1) :=
          List.mem_filter.mpr ⟨hmemq, hpred⟩
        have hnodf := nodup_keysOf_filter qo (fun p => ! containsKey
            ((specAmbientKeys (keysOf qo) [] (keysOf ambient)).map
              (fun k => (k, objGet qo k))) p.1) hqnd
        rw [objLookup_eq_some_of_mem _ k v hnodf hmf, hv]
      · rw [(objLookup_eq_none_iff qo k).mpr hkq,
          (objLookup_eq_none_iff _ k).mpr
            (fun hm => hkq (keysOf_filter_subset qo _ k hm))]
  · rw [hkeys]
    apply List.Nodup.append
    · exact specAmbientKeys_nodup _ _ _
    · exact hqnd.filter _
    · intro k hk1 hk2
      have h1 : k ∈ keysOf ambient :=
        ((specAmbientKeys_mem (keysOf qo) (keysOf ambient) [] k).mp hk1).2.2
      have h2 := List.of_mem_filter hk2
      rw [decide_eq_true h1] at h2
      simp at h2

/-- Claim C2.  `toOrderedQueryObject` returns the same key-to-value
mapping as `toQueryObject` — every lookup agrees, and both key lists
are duplicate-free (so no key is dropped or duplicated) — and its keys
are ordered with the serialized keys that occur in the ambient query
string first, in ambient order (first occurrences), followed by the
remaining serialized keys in registry order. -/
theorem claim2_toOrderedQueryObject_same_mapping_ordered (filters : Filters)
    (values : FilterProps) (ambient : QueryObject) (delimiter : Str)
    (transformKeys : Bool) :
    (∀ k, objLookup (toOrderedQueryObject filters values ambient delimiter
        transformKeys) k =
      objLookup (toQueryObject filters values delimiter transformKeys) k)
    ∧ (keysOf (toOrderedQueryObject filters values ambient delimiter
        transformKeys)).Nodup
    ∧ (keysOf (toQueryObject filters values delimiter transformKeys)).Nodup
    ∧ keysOf (toOrderedQueryObject filters values ambient delimiter
        transformKeys) =
      specAmbientKeys (keysOf (toQueryObject filters values delimiter
        transformKeys)) [] (keysOf ambient)
        ++ (keysOf (toQueryObject filters values delimiter
          transformKeys)).filter (fun k => ! decide (k ∈ keysOf ambient)) := by
  have hqnd := nodup_keysOf_toQueryObject filters values delimiter transformKeys
  have hphase1 := phase1_foldl_eq
    (toQueryObject filters values delimiter transformKeys) ambient []
    (by simp [keysOf]) (by intro p hp; simp at hp)
  have hrw : toOrderedQueryObject filters values ambient delimiter transformKeys =
      objectAssign
        ((specAmbientKeys (keysOf (toQueryObject filters values delimiter
            transformKeys)) [] (keysOf ambient)).map
          (fun k => (k, objGet (toQueryObject filters values delimiter
            transformKeys) k)))
        (toQueryObject filters values delimiter transformKeys) := by
    show objectAssign
        (ambient.foldl (fun oo p =>
          if containsKey (toQueryObject filters values delimiter transformKeys)
              p.1 then
            assocSet oo p.1 (objGet (toQueryObject filters values delimiter
              transformKeys) p.1)
          else oo) [])
        (toQueryObject filters values delimiter transformKeys) = _
    rw [hphase1]
    rfl
  obtain ⟨h1, h2, h3⟩ := orderedObject_general
    (toQueryObject filters values delimiter transformKeys) ambient hqnd
  refine ⟨fun k => ?_, ?_, hqnd, ?_⟩
  · rw [hrw]
    exact h1 k
  · rw [hrw]
    exact h2
  · rw [hrw]
    exact h3
